import Mathlib

/-!
Verification of the Abstract-Analyzer repository.

The development shallowly embeds the two Python source files (`Main.py` and
`user_information.py`) into Lean:

* strings that the Python code inspects character by character are modelled as
  `List Char`; strings that are only carried around are modelled as `String`;
* Python floats that originate in third-party libraries (the `textstat`
  reading-ease score, the `sklearn` tf-idf weights) are modelled as exact
  rationals / reals and enter the embedded functions as parameters;
* Python dicts built with `setdefault` are modelled as association lists with
  unique keys in insertion order, which is exactly the observable behaviour of
  an insertion-ordered Python dict;
* console interaction is modelled by passing the would-be `input()` value as an
  argument and returning `Option`/record outcomes.

Each claim about the program is stated as one theorem over these embedded
definitions.
-/

/-! ### Readability scorer (`Main.py`, `abstract_complexity`) -/

/-- The feedback string of the first branch of `abstract_complexity`
(`Main.py` lines 294-296), returned when `50 >= reading_ease >= 90`. -/
def easyFeedback : String :=
  "The abstract is very clear and easy to understand, even for younger readers aged 9 to 16. This is a significant strength, as it makes the research accessible to a wider audience. The language used is engaging and straightforward, which helps readers quickly grasp the key points. Since this is an academic paper, consider adding 1 or 2 technical terms along with brief explanations to meet scholarly expectations while maintaining high readability."

/-- The feedback string of the `else` branch of `abstract_complexity`
(`Main.py` lines 298-300). -/
def elseFeedback : String :=
  "The abstract effectively outlines the key points of the research, but it may need some adjustments to make it more accessible to a broader audience. The research topic is important, and with a few tweaks, it could be even more engaging. Some terms might be too technical for younger readers the goal is not to sacrifice academic rigor, but to enhance understanding."

/-- The Python chained comparison `50 >= reading_ease >= 90` from `Main.py`
line 293: it abbreviates `50 >= reading_ease and reading_ease >= 90`. -/
def easyBranchCond (readingEase : ℚ) : Prop :=
  50 ≥ readingEase ∧ readingEase ≥ 90

instance (readingEase : ℚ) : Decidable (easyBranchCond readingEase) := by
  unfold easyBranchCond; infer_instance

/-- Feedback selection of `abstract_complexity` (`Main.py` lines 293-300). -/
def complexityFeedback (readingEase : ℚ) : String :=
  if easyBranchCond readingEase then easyFeedback else elseFeedback

/-- Result record of `abstract_complexity`: the Python function returns the
list `[word_count, char_count, reading_ease, feedback]`. -/
structure ReadabilityReport where
  wordCount : Nat
  charCount : Nat
  score : ℚ
  feedback : String
deriving DecidableEq, Repr

/-- `abstract_complexity` (`Main.py` lines 281-307).  The reading-ease score
and the lexicon count are produced by the third-party `textstat` library and
enter as parameters; the character count is the raw length of the abstract. -/
def abstract_complexity (readingEase : ℚ) (lexiconCount : Nat)
    (abstractChars : List Char) : ReadabilityReport :=
  { wordCount := lexiconCount
    charCount := abstractChars.length
    score := readingEase
    feedback := complexityFeedback readingEase }

/-! ### Input collectors (`user_information.py` / `Main.py`, class `UserInput`) -/

/-- Python `text.split(" ")`: split on each single literal space, keeping
empty fragments (so `"a  b"` gives three fragments and `""` gives one). -/
def pySplitSpace : List Char → List (List Char)
  | [] => [[]]
  | c :: cs =>
    if c = ' ' then [] :: pySplitSpace cs
    else
      match pySplitSpace cs with
      | [] => [[c]]
      | t :: ts => (c :: t) :: ts

/-- Python `str.isalpha()`: true iff the string is non-empty and every
character is alphabetic. -/
def pyIsAlpha (cs : List Char) : Bool :=
  !cs.isEmpty && cs.all Char.isAlpha

/-- One validation attempt of `user_name` (`user_information.py` lines 26-44,
duplicated at `Main.py` lines 83-101): the raw console line is uppercased,
spaces are removed (`replace(" ", "")` plus a redundant second `.upper()`),
and the attempt succeeds iff the remainder passes `isalpha()`; the stored
result is the uppercased raw line. -/
def user_name (raw : List Char) : Option (List Char) :=
  let name := raw.map Char.toUpper
  let checkName := (name.filter (fun c => c ≠ ' ')).map Char.toUpper
  if pyIsAlpha checkName then some name else none

/-- One validation attempt of `user_research_abstract`
(`user_information.py` lines 67-87, duplicated at `Main.py` lines 124-144):
the raw console line is kept verbatim and the attempt succeeds iff
`len(raw.split(" "))` is at least 100. -/
def user_research_abstract (raw : List Char) : Option (List Char) :=
  let wordNumbers := (pySplitSpace raw).length
  if wordNumbers < 100 then none else some raw

/-! #### Character-level helper lemmas -/

theorem isUpper_iff (x : Char) : x.isUpper = true ↔ 65 ≤ x.toNat ∧ x.toNat ≤ 90 := by
  simp only [Char.isUpper, ge_iff_le, Bool.and_eq_true, decide_eq_true_eq]
  exact Iff.rfl

theorem isLower_iff (x : Char) : x.isLower = true ↔ 97 ≤ x.toNat ∧ x.toNat ≤ 122 := by
  simp only [Char.isLower, ge_iff_le, Bool.and_eq_true, decide_eq_true_eq]
  exact Iff.rfl

theorem char_toNat_ofNat {n : Nat} (h : n.isValidChar) :
    (Char.ofNat n).toNat = n := by
  simp only [Char.ofNat, dif_pos h, Char.ofNatAux, Char.toNat]
  rfl

theorem toUpper_toNat_of (c : Char) (hc : 97 ≤ c.toNat ∧ c.toNat ≤ 122) :
    (Char.toUpper c).toNat = c.toNat - 32 := by
  simp only [Char.toUpper, if_pos hc]
  exact char_toNat_ofNat (Or.inl (by omega))

theorem toUpper_eq_self_of_not (c : Char) (hc : ¬ (97 ≤ c.toNat ∧ c.toNat ≤ 122)) :
    Char.toUpper c = c := by
  simp only [Char.toUpper, if_neg hc]

theorem toUpper_space_iff (c : Char) : Char.toUpper c = ' ' ↔ c = ' ' := by
  constructor
  · intro h
    by_cases hc : 97 ≤ Char.toNat c ∧ Char.toNat c ≤ 122
    · exfalso
      have hval := toUpper_toNat_of c hc
      rw [h] at hval
      have : (' ' : Char).toNat = 32 := rfl
      omega
    · rwa [toUpper_eq_self_of_not c hc] at h
  · intro h; subst h; rfl

theorem isAlpha_toUpper (c : Char) : (Char.toUpper c).isAlpha = c.isAlpha := by
  by_cases hc : 97 ≤ Char.toNat c ∧ Char.toNat c ≤ 122
  · have hval := toUpper_toNat_of c hc
    have h1 : (Char.toUpper c).isAlpha = true := by
      simp only [Char.isAlpha, Bool.or_eq_true, isUpper_iff]
      left; omega
    have h2 : c.isAlpha = true := by
      simp only [Char.isAlpha, Bool.or_eq_true, isLower_iff]
      right; omega
    rw [h1, h2]
  · rw [toUpper_eq_self_of_not c hc]

theorem pySplitSpace_ne_nil (cs : List Char) : pySplitSpace cs ≠ [] := by
  induction cs with
  | nil => simp [pySplitSpace]
  | cons c cs ih =>
    by_cases h : c = ' '
    · simp [pySplitSpace, h]
    · simp only [pySplitSpace, if_neg h]
      cases hcs : pySplitSpace cs with
      | nil => simp
      | cons t ts => simp

theorem pySplitSpace_length (cs : List Char) :
    (pySplitSpace cs).length = cs.count ' ' + 1 := by
  induction cs with
  | nil => simp [pySplitSpace]
  | cons c cs ih =>
    by_cases h : c = ' '
    · subst h
      simp [pySplitSpace, List.count_cons, ih]
    · rw [pySplitSpace]
      rw [if_neg h]
      cases hcs : pySplitSpace cs with
      | nil => exact absurd hcs (pySplitSpace_ne_nil cs)
      | cons t ts =>
        rw [hcs] at ih
        simp only [List.length_cons] at ih ⊢
        rw [List.count_cons]
        simp [h, ih]

/-! ### Claim theorems for the readability scorer and the input collectors -/

/-- C1: for every abstract, `abstract_complexity` selects the feedback
template by testing `score <= 50 AND score >= 90`, which no real score
satisfies, so the returned feedback is always the `else` template and the
easy-to-read branch is never taken. -/
theorem C1_feedback_always_else (readingEase : ℚ) (lexiconCount : Nat)
    (abstractChars : List Char) :
    ¬ easyBranchCond readingEase ∧
    (abstract_complexity readingEase lexiconCount abstractChars).feedback = elseFeedback ∧
    (abstract_complexity readingEase lexiconCount abstractChars).feedback ≠ easyFeedback := by
  have hdead : ¬ easyBranchCond readingEase := by
    rintro ⟨h1, h2⟩
    linarith
  have hfb : (abstract_complexity readingEase lexiconCount abstractChars).feedback
      = elseFeedback := by
    simp [abstract_complexity, complexityFeedback, hdead]
  refine ⟨hdead, hfb, ?_⟩
  rw [hfb]
  decide

/-- C6: one attempt of the abstract collector accepts a raw line, returning it
verbatim, exactly when `len(raw.split(" "))` is at least 100; and that count
obeys the literal single-space rule: it equals the number of space characters
plus one (so runs of spaces inflate the count with empty fragments, and
non-space whitespace never separates). -/
theorem C6_abstract_accept_iff (raw : List Char) :
    user_research_abstract raw =
      (if 100 ≤ (pySplitSpace raw).length then some raw else none) ∧
    (pySplitSpace raw).length = raw.count ' ' + 1 := by
  constructor
  · by_cases h : (pySplitSpace raw).length < 100
    · rw [user_research_abstract]
      simp only [if_pos h]
      rw [if_neg (by omega)]
    · rw [user_research_abstract]
      simp only [if_neg h]
      rw [if_pos (by omega)]
  · exact pySplitSpace_length raw

theorem pyIsAlpha_iff (l : List Char) :
    pyIsAlpha l = true ↔ (l ≠ [] ∧ l.all Char.isAlpha = true) := by
  simp [pyIsAlpha]

theorem isEmpty_map (l : List Char) (f : Char → Char) :
    (l.map f).isEmpty = l.isEmpty := by
  cases l <;> simp

theorem pyIsAlpha_map_toUpper (l : List Char) :
    pyIsAlpha (l.map Char.toUpper) = pyIsAlpha l := by
  simp only [pyIsAlpha, isEmpty_map, List.all_map, Function.comp_def, isAlpha_toUpper]

theorem filter_space_map_toUpper (l : List Char) :
    (l.map Char.toUpper).filter (fun c => c ≠ ' ') =
      (l.filter (fun c => c ≠ ' ')).map Char.toUpper := by
  rw [List.filter_map]
  congr 1
  apply List.filter_congr
  intro c _
  simp [Function.comp_def, toUpper_space_iff]

/-- C7: one attempt of the name collector accepts a raw line exactly when the
line with all spaces removed is non-empty and purely alphabetic, and the
accepted name is the uppercased raw line. -/
theorem C7_name_accept_iff (raw : List Char) :
    user_name raw =
      if (raw.filter (fun c => c ≠ ' ')) ≠ [] ∧
          (raw.filter (fun c => c ≠ ' ')).all Char.isAlpha = true
      then some (raw.map Char.toUpper) else none := by
  rw [user_name]
  simp only [filter_space_map_toUpper, pyIsAlpha_map_toUpper]
  by_cases h : (raw.filter (fun c => c ≠ ' ')) ≠ [] ∧
      (raw.filter (fun c => c ≠ ' ')).all Char.isAlpha = true
  · rw [if_pos ((pyIsAlpha_iff _).mpr h), if_pos h]
  · rw [if_neg (fun hc => h ((pyIsAlpha_iff _).mp hc)), if_neg h]

/-! ### Keyword extractor (`Main.py`, `abstract_keywords`)

`AbstractAnalyzer.__init__` constructs the vectorizer with
`stop_words="english", max_features=50`; `abstract_keywords` fits it on the
one-document corpus `[abstract]` and post-processes the result.  The sklearn
vectorizer used here: lowercases the text, tokenizes it into maximal runs of
word characters of length at least two, drops its built-in English stop
words, keeps the 50 most frequent remaining terms as vocabulary, and (with a
one-document corpus every inverse document frequency is exactly 1) produces
the L2-normalised term counts `count / sqrt (sum of squared counts)` as
weights, with feature names listed alphabetically. -/

/-- Python regex `\w` (ASCII model): letters, digits and underscore. -/
def isWordChar (c : Char) : Bool := c.isAlphanum || c = '_'

/-- Tokenizer for the pattern `\b\w\w+\b`: maximal runs of word characters,
keeping only runs of length at least 2.  `cur` is the current run reversed. -/
def tokenizeAux : List Char → List Char → List (List Char)
  | [], cur => if 2 ≤ cur.length then [cur.reverse] else []
  | c :: cs, cur =>
    if isWordChar c then tokenizeAux cs (c :: cur)
    else (if 2 ≤ cur.length then [cur.reverse] else []) ++ tokenizeAux cs []

/-- Python `str.lower()` on a string value (ASCII model). -/
def pyLower (s : String) : String := ⟨s.data.map Char.toLower⟩

/-- Python `str.upper()` on a string value (ASCII model). -/
def pyUpperString (s : String) : String := ⟨s.data.map Char.toUpper⟩

/-- The tokens sklearn extracts from the abstract: the text is lowercased
first, then cut on non-word characters. -/
def sklearnTokens (abstractChars : List Char) : List String :=
  (tokenizeAux (abstractChars.map Char.toLower) []).map (fun t => (⟨t⟩ : String))

/-- Model of the built-in English stop-word list selected by
`stop_words="english"` (library data, not repository code: the standard
Glasgow IR list shipped with sklearn). -/
def englishStopWords : List String :=
  ["a", "about", "above", "across", "after", "afterwards", "again", "against",
   "all", "almost", "alone", "along", "already", "also", "although", "always",
   "am", "among", "amongst", "amoungst", "amount", "an", "and", "another",
   "any", "anyhow", "anyone", "anything", "anyway", "anywhere", "are",
   "around", "as", "at", "back", "be", "became", "because", "become",
   "becomes", "becoming", "been", "before", "beforehand", "behind", "being",
   "below", "beside", "besides", "between", "beyond", "bill", "both",
   "bottom", "but", "by", "call", "can", "cannot", "cant", "co", "con",
   "could", "couldnt", "cry", "de", "describe", "detail", "do", "done",
   "down", "due", "during", "each", "eg", "eight", "either", "eleven",
   "else", "elsewhere", "empty", "enough", "etc", "even", "ever", "every",
   "everyone", "everything", "everywhere", "except", "few", "fifteen",
   "fifty", "fill", "find", "fire", "first", "five", "for", "former",
   "formerly", "forty", "found", "four", "from", "front", "full", "further",
   "get", "give", "go", "had", "has", "hasnt", "have", "he", "hence", "her",
   "here", "hereafter", "hereby", "herein", "hereupon", "hers", "herself",
   "him", "himself", "his", "how", "however", "hundred", "i", "ie", "if",
   "in", "inc", "indeed", "interest", "into", "is", "it", "its", "itself",
   "keep", "last", "latter", "latterly", "least", "less", "ltd", "made",
   "many", "may", "me", "meanwhile", "might", "mill", "mine", "more",
   "moreover", "most", "mostly", "move", "much", "must", "my", "myself",
   "name", "namely", "neither", "never", "nevertheless", "next", "nine",
   "no", "nobody", "none", "noone", "nor", "not", "nothing", "now",
   "nowhere", "of", "off", "often", "on", "once", "one", "only", "onto",
   "or", "other", "others", "otherwise", "our", "ours", "ourselves", "out",
   "over", "own", "part", "per", "perhaps", "please", "put", "rather", "re",
   "same", "see", "seem", "seemed", "seeming", "seems", "serious", "several",
   "she", "should", "show", "side", "since", "sincere", "six", "sixty",
   "so", "some", "somehow", "someone", "something", "sometime", "sometimes",
   "somewhere", "still", "such", "system", "take", "ten", "than", "that",
   "the", "their", "them", "themselves", "then", "thence", "there",
   "thereafter", "thereby", "therefore", "therein", "thereupon", "these",
   "they", "thick", "thin", "third", "this", "those", "though", "three",
   "through", "throughout", "thru", "thus", "to", "together", "too", "top",
   "toward", "towards", "twelve", "twenty", "two", "un", "under", "until",
   "up", "upon", "us", "very", "via", "was", "we", "well", "were", "what",
   "whatever", "when", "whence", "whenever", "where", "whereafter",
   "whereas", "whereby", "wherein", "whereupon", "wherever", "whether",
   "which", "while", "whither", "who", "whoever", "whole", "whom", "whose",
   "why", "will", "with", "within", "without", "would", "yet", "you",
   "your", "yours", "yourself", "yourselves"]

/-- The non-stop-word tokens of the abstract. -/
def contentTokens (abstractChars : List Char) : List String :=
  (sklearnTokens abstractChars).filter (fun t => !(englishStopWords.contains t))

/-- The distinct terms with their frequencies, feature names alphabetical. -/
def countedVocab (abstractChars : List Char) : List (String × Nat) :=
  let toks := contentTokens abstractChars
  ((toks.dedup).mergeSort (fun a b => decide (a ≤ b))).map (fun t => (t, toks.count t))

/-- `max_features=50`: keep the 50 highest-frequency terms, then list the
surviving feature names alphabetically again. -/
def vocab50 (abstractChars : List Char) : List (String × Nat) :=
  (((countedVocab abstractChars).mergeSort (fun p q => decide (q.2 ≤ p.2))).take 50).mergeSort
    (fun p q => decide (p.1 ≤ q.1))

/-- Squared L2 norm of the tf-idf vector: with a one-document corpus every
idf factor is 1, so this is the sum of the squared counts. -/
def sqNorm (abstractChars : List Char) : Nat :=
  ((vocab50 abstractChars).map (fun p => p.2 * p.2)).sum

/-- The numeric tf-idf weight of a term with count `c` in a document whose
tf-idf vector has squared norm `S`. -/
noncomputable def keywordWeight (c S : Nat) : ℝ := (c : ℝ) / Real.sqrt S

/-- `sorted(zip(keywords, scores), key=lambda x: -x[1])[:10]` from
`Main.py` line 246: a stable descending sort of the alphabetical feature
list by weight, truncated to ten entries.  Sorting by the weights
`c / sqrt S` is sorting by the counts `c`, since `S` is one fixed norm. -/
def abstract_keyword_pairs (abstractChars : List Char) : List (String × Nat) :=
  ((vocab50 abstractChars).mergeSort (fun p q => decide (q.2 ≤ p.2))).take 10

/-- Decimal digit character. -/
def digitChar (d : Nat) : Char := Char.ofNat (48 + d)

/-- Rounding of the exact real `100 * c / sqrt S` to the nearest integer
(ties to even), computed with integer arithmetic: this is the idealised
model of applying Python `f"{value:.2f}"` to the weight `c / sqrt S`. -/
def weightHundredths (c S : Nat) : Nat :=
  if S = 0 then 0
  else
    let a := 100 * c
    let f := Nat.sqrt (a * a / S)
    if (2 * f + 1) * (2 * f + 1) * S < 4 * (a * a) then f + 1
    else if 4 * (a * a) < (2 * f + 1) * (2 * f + 1) * S then f
    else if f % 2 = 0 then f else f + 1

/-- `f"{value:.2f}"`: integer part, a dot, and exactly two fraction digits. -/
def fmt2 (c S : Nat) : String :=
  let h := weightHundredths c S
  toString (h / 100) ++ "." ++ (⟨[digitChar (h % 100 / 10), digitChar (h % 10)]⟩ : String)

/-- `abstract_keywords` (`Main.py` lines 234-251): the top-10 pairs with the
term lowercased and the weight formatted to two decimal places. -/
def abstract_keywords (abstractChars : List Char) : List (String × String) :=
  let S := sqNorm abstractChars
  (abstract_keyword_pairs abstractChars).map (fun p => (pyLower p.1, fmt2 p.2 S))

/-! #### Lemmas for the keyword extractor -/

theorem isDigit_iff (x : Char) : x.isDigit = true ↔ 48 ≤ x.toNat ∧ x.toNat ≤ 57 := by
  simp only [Char.isDigit, ge_iff_le, Bool.and_eq_true, decide_eq_true_eq]
  exact Iff.rfl

theorem digitChar_isDigit {d : Nat} (h : d < 10) : (digitChar d).isDigit = true := by
  rw [isDigit_iff]
  have hv : (digitChar d).toNat = 48 + d := char_toNat_ofNat (Or.inl (by omega))
  omega

theorem keywordWeight_nonneg (c S : Nat) : 0 ≤ keywordWeight c S :=
  div_nonneg (Nat.cast_nonneg c) (Real.sqrt_nonneg S)

theorem keywordWeight_le_one {c S : Nat} (h : c * c ≤ S) : keywordWeight c S ≤ 1 := by
  unfold keywordWeight
  rcases Nat.eq_zero_or_pos S with hS | hS
  · subst hS
    simp
  · have hs : 0 < Real.sqrt S := Real.sqrt_pos.mpr (by exact_mod_cast hS)
    rw [div_le_one hs]
    rw [Real.le_sqrt (Nat.cast_nonneg c) (Nat.cast_nonneg S)]
    have hcast : ((c * c : Nat) : ℝ) ≤ ((S : Nat) : ℝ) := by exact_mod_cast h
    push_cast at hcast
    nlinarith [hcast]

theorem keywordWeight_mono {c c' : Nat} (S : Nat) (h : c' ≤ c) :
    keywordWeight c' S ≤ keywordWeight c S := by
  unfold keywordWeight
  rcases eq_or_lt_of_le (Real.sqrt_nonneg (S : ℝ)) with hs | hs
  · rw [← hs]
    simp
  · rw [div_le_div_iff_of_pos_right hs]
    exact_mod_cast h

theorem mergeSort_pairwise_ge (l : List (String × Nat)) :
    List.Pairwise (fun p q : String × Nat => q.2 ≤ p.2)
      (l.mergeSort (fun p q => decide (q.2 ≤ p.2))) := by
  have hs := @List.sorted_mergeSort (String × Nat) (fun p q => decide (q.2 ≤ p.2))
    (fun a b c hab hbc => by
      simp only [decide_eq_true_eq] at hab hbc ⊢
      omega)
    (fun a b => by
      simp only [Bool.or_eq_true, decide_eq_true_eq]
      omega) l
  exact hs.imp (fun h => of_decide_eq_true h)

theorem mem_vocab50_of_mem_pairs {abstractChars : List Char} {p : String × Nat}
    (hp : p ∈ abstract_keyword_pairs abstractChars) : p ∈ vocab50 abstractChars := by
  unfold abstract_keyword_pairs at hp
  have h1 : p ∈ (vocab50 abstractChars).mergeSort (fun p q => decide (q.2 ≤ p.2)) :=
    (List.take_sublist _ _).mem hp
  exact (List.mergeSort_perm _ _).mem_iff.mp h1

theorem sq_le_sqNorm {abstractChars : List Char} {p : String × Nat}
    (hp : p ∈ vocab50 abstractChars) : p.2 * p.2 ≤ sqNorm abstractChars := by
  unfold sqNorm
  exact List.single_le_sum (fun x _ => Nat.zero_le x) _
    (List.mem_map_of_mem (fun q => q.2 * q.2) hp)

/-- Shape of a string formatted by `f"{value:.2f}"`: some prefix, a dot, and
exactly two decimal digits. -/
def twoDecimalShape (s : String) : Prop :=
  ∃ pre d1 d2, s = pre ++ "." ++ (⟨[d1, d2]⟩ : String) ∧
    d1.isDigit = true ∧ d2.isDigit = true

theorem fmt2_shape (c S : Nat) : twoDecimalShape (fmt2 c S) :=
  ⟨toString (weightHundredths c S / 100),
   digitChar (weightHundredths c S % 100 / 10), digitChar (weightHundredths c S % 10),
   rfl, digitChar_isDigit (by omega), digitChar_isDigit (by omega)⟩

theorem toLower_toNat_of (c : Char) (hc : 65 ≤ c.toNat ∧ c.toNat ≤ 90) :
    (Char.toLower c).toNat = c.toNat + 32 := by
  simp only [Char.toLower, if_pos hc]
  exact char_toNat_ofNat (Or.inl (by omega))

theorem toLower_eq_self_of_not (c : Char) (hc : ¬ (65 ≤ c.toNat ∧ c.toNat ≤ 90)) :
    Char.toLower c = c := by
  simp only [Char.toLower, if_neg hc]

theorem isUpper_toLower (c : Char) : (Char.toLower c).isUpper = false := by
  by_cases hc : 65 ≤ c.toNat ∧ c.toNat ≤ 90
  · have hval := toLower_toNat_of c hc
    rw [Bool.eq_false_iff]
    intro h
    rw [isUpper_iff] at h
    omega
  · rw [toLower_eq_self_of_not c hc, Bool.eq_false_iff]
    intro h
    rw [isUpper_iff] at h
    omega

/-- C5: keyword extraction returns at most 10 pairs; the underlying numeric
weights `count / sqrt S` are sorted descending and lie in `[0, 1]`; every
output term is lowercase; every output weight string has exactly two decimal
places; the vocabulary is capped to at most 50 terms before weighting and
every output term comes from it. -/
theorem C5_keyword_extraction_shape (abstractChars : List Char) :
    (abstract_keywords abstractChars).length ≤ 10 ∧
    List.Pairwise
      (fun p q : String × Nat =>
        keywordWeight q.2 (sqNorm abstractChars) ≤ keywordWeight p.2 (sqNorm abstractChars))
      (abstract_keyword_pairs abstractChars) ∧
    List.Forall
      (fun p : String × Nat =>
        0 ≤ keywordWeight p.2 (sqNorm abstractChars) ∧
        keywordWeight p.2 (sqNorm abstractChars) ≤ 1)
      (abstract_keyword_pairs abstractChars) ∧
    List.Forall
      (fun q : String × String => List.Forall (fun c => c.isUpper = false) q.1.data)
      (abstract_keywords abstractChars) ∧
    List.Forall (fun q : String × String => twoDecimalShape q.2)
      (abstract_keywords abstractChars) ∧
    (vocab50 abstractChars).length ≤ 50 ∧
    List.Forall
      (fun q : String × String => q.1 ∈ (vocab50 abstractChars).map (fun p => pyLower p.1))
      (abstract_keywords abstractChars) := by
  refine ⟨?_, ?_, ?_, ?_, ?_, ?_, ?_⟩
  · unfold abstract_keywords abstract_keyword_pairs
    simp only [List.length_map]
    exact List.length_take_le 10 _
  · exact ((mergeSort_pairwise_ge _).sublist (List.take_sublist _ _)).imp
      (fun h => keywordWeight_mono _ h)
  · rw [List.forall_iff_forall_mem]
    intro p hp
    exact ⟨keywordWeight_nonneg _ _,
      keywordWeight_le_one (sq_le_sqNorm (mem_vocab50_of_mem_pairs hp))⟩
  · rw [List.forall_iff_forall_mem]
    intro q hq
    unfold abstract_keywords at hq
    obtain ⟨p, _, hq⟩ := List.mem_map.mp hq
    rw [List.forall_iff_forall_mem]
    intro c hc
    rw [← hq] at hc
    simp only [pyLower] at hc
    obtain ⟨c0, _, hc0⟩ := List.mem_map.mp hc
    rw [← hc0]
    exact isUpper_toLower c0
  · rw [List.forall_iff_forall_mem]
    intro q hq
    unfold abstract_keywords at hq
    obtain ⟨p, _, hq⟩ := List.mem_map.mp hq
    rw [← hq]
    exact fmt2_shape p.2 _
  · unfold vocab50
    rw [List.length_mergeSort]
    exact List.length_take_le 50 _
  · rw [List.forall_iff_forall_mem]
    intro q hq
    unfold abstract_keywords at hq
    obtain ⟨p, hp, hq⟩ := List.mem_map.mp hq
    rw [← hq]
    exact List.mem_map_of_mem (fun r => pyLower r.1) (mem_vocab50_of_mem_pairs hp)

/-! ### Discipline classifier (`Main.py`, `abstract_topic_classification`) -/

/-- One row of `Abstract_keywords.csv`: a `Discipline` cell and a `Keyword`
cell. -/
structure CsvRow where
  discipline : String
  keyword : String
deriving DecidableEq, Repr

/-- Python `d.setdefault(k, []).append(v)` on an insertion-ordered dict
modelled as an association list: append `v` to the list of the first entry
with key `k`, or insert `(k, [v])` at the end when `k` is absent. -/
def setdefaultAppend : List (String × List String) → String → String →
    List (String × List String)
  | [], k, v => [(k, [v])]
  | (k0, vs) :: rest, k, v =>
    if k0 = k then (k0, vs ++ [v]) :: rest
    else (k0, vs) :: setdefaultAppend rest k v

/-- Python `str.strip()` (ASCII model): remove leading and trailing
whitespace. -/
def pyStrip (s : String) : String :=
  ⟨((s.data.dropWhile Char.isWhitespace).reverse.dropWhile Char.isWhitespace).reverse⟩

/-- Python `str.title()` (ASCII model): an alphabetic character is uppercased
when the previous character is not alphabetic and lowercased otherwise. -/
def pyTitleAux : Bool → List Char → List Char
  | _, [] => []
  | prevAlpha, c :: cs =>
    (if c.isAlpha then (if prevAlpha then Char.toLower c else Char.toUpper c) else c) ::
      pyTitleAux c.isAlpha cs

/-- Python `str.title()` on a string value. -/
def pyTitle (s : String) : String := ⟨pyTitleAux false s.data⟩

/-- The `discipline_map` building loop (`Main.py` lines 264-267): for each CSV
row, `discipline_map.setdefault(row["Discipline"].strip(), [])
.append(row["Keyword"].strip().lower())`, starting from the current state of
the instance attribute. -/
def buildDisciplineMap (rows : List CsvRow) (m0 : List (String × List String)) :
    List (String × List String) :=
  rows.foldl (fun m row =>
    setdefaultAppend m (pyStrip row.discipline) (pyLower (pyStrip row.keyword))) m0

/-- The literal returned when `classified_topic` stays empty
(`Main.py` line 275). -/
def noMatchSentinel : String := "No matching disciplines found for the top keywords."

/-- The matching loop (`Main.py` lines 269-272): for each extracted keyword,
for each discipline in the map, if the keyword is in the discipline list,
`classified_topic.setdefault(discipline, []).append(key.title())`. -/
def classifyFold (dm : List (String × List String)) (kws : List String)
    (ct0 : List (String × List String)) : List (String × List String) :=
  kws.foldl (fun ct k =>
    dm.foldl (fun ct2 p =>
      if k ∈ p.2 then setdefaultAppend ct2 p.1 (pyTitle k) else ct2) ct) ct0

/-- The return value (`Main.py` lines 274-279): the sentinel when nothing
matched, otherwise the first key of `classified_topic` in insertion order. -/
def classifyResult (ct : List (String × List String)) : String :=
  match ct with
  | [] => noMatchSentinel
  | (d, _) :: _ => d

/-- The mutable attributes of an `AbstractAnalyzer` instance
(`Main.py` lines 229-232). -/
structure AnalyzerState where
  keyword_scores : Option (List (String × String))
  discipline_map : List (String × List String)
  classified_topic : List (String × List String)
deriving DecidableEq, Repr

/-- The attribute values right after `__init__`. -/
def initAnalyzerState : AnalyzerState := ⟨none, [], []⟩

/-- `abstract_topic_classification` (`Main.py` lines 253-279) with the
instance state threaded explicitly.  Each call re-reads the CSV (the rows
enter as a parameter), extends `discipline_map` from its current value,
recomputes the keyword dict via the inner `self.abstract_keywords()` call
(which also reassigns `keyword_scores`), extends `classified_topic`, and
returns the first classified discipline or the sentinel. -/
def abstract_topic_classification (rows : List CsvRow) (abstractChars : List Char)
    (st : AnalyzerState) : String × AnalyzerState :=
  let dm := buildDisciplineMap rows st.discipline_map
  let kwPairs := abstract_keywords abstractChars
  let ct := classifyFold dm (kwPairs.map Prod.fst) st.classified_topic
  (classifyResult ct, ⟨some kwPairs, dm, ct⟩)

/-- The classification outcome for a fresh analyzer, as a function of the
table rows and an arbitrary extracted keyword list. -/
def classifyTopic (rows : List CsvRow) (kws : List String) : String :=
  classifyResult (classifyFold (buildDisciplineMap rows []) kws [])

/-- Stated from the claim's words, for comparison with the implementation:
the first discipline, in table row order, whose keyword list contains any
extracted keyword. -/
def firstDisciplineWithAnyMatch (rows : List CsvRow) (kws : List String) : Option String :=
  ((buildDisciplineMap rows []).find? (fun p => kws.any (fun k => decide (k ∈ p.2)))).map Prod.fst

/-- `abstract_keywords` as the method that also reassigns the
`keyword_scores` attribute (`Main.py` line 249). -/
def abstract_keywords_method (abstractChars : List Char) (st : AnalyzerState) :
    List (String × String) × AnalyzerState :=
  let r := abstract_keywords abstractChars
  (r, { st with keyword_scores := some r })

/-- `abstract_complexity` as a method: it reads `self.abstract` but assigns
no attribute, so the instance state passes through unchanged. -/
def abstract_complexity_method (readingEase : ℚ) (lexiconCount : Nat)
    (abstractChars : List Char) (st : AnalyzerState) : ReadabilityReport × AnalyzerState :=
  (abstract_complexity readingEase lexiconCount abstractChars, st)

/-! #### Association-list lemmas for the classifier -/

/-- Apply a sequence of `(discipline, value)` inserts with
`setdefaultAppend`. -/
def applyHits (ct : List (String × List String)) (hs : List (String × String)) :
    List (String × List String) :=
  hs.foldl (fun m dv => setdefaultAppend m dv.1 dv.2) ct

/-- The disciplines recorded while testing one keyword `k`, in map order. -/
def hitsFor (dm : List (String × List String)) (k : String) : List String :=
  (dm.filter (fun p => decide (k ∈ p.2))).map Prod.fst

/-- The full sequence of `(discipline, titled keyword)` inserts performed by
the matching loop, in execution order (keyword-major). -/
def totalHits (dm : List (String × List String)) (kws : List String) :
    List (String × String) :=
  kws.flatMap (fun k => (hitsFor dm k).map (fun d => (d, pyTitle k)))

theorem setdefaultAppend_ne_nil (m : List (String × List String)) (k v : String) :
    setdefaultAppend m k v ≠ [] := by
  cases m with
  | nil => simp [setdefaultAppend]
  | cons p rest =>
    obtain ⟨k0, vs⟩ := p
    by_cases h : k0 = k <;> simp [setdefaultAppend, h]

theorem classifyResult_setdefaultAppend (m : List (String × List String))
    (k v : String) (h : m ≠ []) :
    classifyResult (setdefaultAppend m k v) = classifyResult m := by
  cases m with
  | nil => exact absurd rfl h
  | cons p rest =>
    obtain ⟨k0, vs⟩ := p
    by_cases h0 : k0 = k <;> simp [setdefaultAppend, h0, classifyResult]

theorem applyHits_ne_nil (hs : List (String × String))
    (ct : List (String × List String)) (h : ct ≠ []) : applyHits ct hs ≠ [] := by
  induction hs generalizing ct with
  | nil => exact h
  | cons dv hs ih =>
    exact ih (setdefaultAppend ct dv.1 dv.2) (setdefaultAppend_ne_nil ct dv.1 dv.2)

theorem classifyResult_applyHits (hs : List (String × String))
    (ct : List (String × List String)) (h : ct ≠ []) :
    classifyResult (applyHits ct hs) = classifyResult ct := by
  induction hs generalizing ct with
  | nil => rfl
  | cons dv hs ih =>
    calc classifyResult (applyHits (setdefaultAppend ct dv.1 dv.2) hs)
        = classifyResult (setdefaultAppend ct dv.1 dv.2) :=
          ih _ (setdefaultAppend_ne_nil ct dv.1 dv.2)
      _ = classifyResult ct := classifyResult_setdefaultAppend ct dv.1 dv.2 h

theorem classifyResult_applyHits_nil (hs : List (String × String)) :
    classifyResult (applyHits [] hs) = (hs.head?.map Prod.fst).getD noMatchSentinel := by
  cases hs with
  | nil => rfl
  | cons dv hs =>
    obtain ⟨d, v⟩ := dv
    have h1 : applyHits [] ((d, v) :: hs) = applyHits [(d, [v])] hs := rfl
    rw [h1, classifyResult_applyHits hs [(d, [v])] (by simp)]
    rfl

theorem applyHits_append (ct : List (String × List String))
    (hs1 hs2 : List (String × String)) :
    applyHits ct (hs1 ++ hs2) = applyHits (applyHits ct hs1) hs2 :=
  List.foldl_append _ _ hs1 hs2

theorem innerFold_eq (dm : List (String × List String)) (k : String)
    (ct : List (String × List String)) :
    dm.foldl (fun ct2 p =>
        if k ∈ p.2 then setdefaultAppend ct2 p.1 (pyTitle k) else ct2) ct =
      applyHits ct ((hitsFor dm k).map (fun d => (d, pyTitle k))) := by
  induction dm generalizing ct with
  | nil => rfl
  | cons p dm ih =>
    by_cases hk : k ∈ p.2
    · simp only [List.foldl_cons, if_pos hk, hitsFor, List.filter_cons,
        decide_eq_true hk, List.map_cons]
      rw [ih]
      rfl
    · simp only [List.foldl_cons, if_neg hk, hitsFor, List.filter_cons,
        decide_eq_false hk, List.map_cons]
      exact ih ct

theorem classifyFold_eq (dm : List (String × List String)) (kws : List String)
    (ct : List (String × List String)) :
    classifyFold dm kws ct = applyHits ct (totalHits dm kws) := by
  induction kws generalizing ct with
  | nil => rfl
  | cons k kws ih =>
    have hstep : classifyFold dm (k :: kws) ct =
        classifyFold dm kws
          (dm.foldl (fun ct2 p =>
            if k ∈ p.2 then setdefaultAppend ct2 p.1 (pyTitle k) else ct2) ct) := rfl
    rw [hstep, ih, innerFold_eq]
    have htot : totalHits dm (k :: kws) =
        (hitsFor dm k).map (fun d => (d, pyTitle k)) ++ totalHits dm kws := by
      simp [totalHits]
    rw [htot, applyHits_append]

theorem head?_flatMap {α β : Type} (l : List α) (f : α → List β) :
    (l.flatMap f).head? = l.findSome? (fun x => (f x).head?) := by
  induction l with
  | nil => rfl
  | cons a l ih =>
    cases hfa : f a with
    | nil => simp [List.flatMap_cons, List.findSome?_cons, hfa, ih]
    | cons b bs => simp [List.flatMap_cons, List.findSome?_cons, hfa]

theorem findSome?_map_option {α β γ : Type} (l : List α) (f : α → Option β) (g : β → γ) :
    (l.findSome? f).map g = l.findSome? (fun x => (f x).map g) := by
  induction l with
  | nil => rfl
  | cons a l ih =>
    cases hfa : f a with
    | none => simp [List.findSome?_cons, hfa, ih]
    | some b => simp [List.findSome?_cons, hfa]

theorem filter_head?_eq_find? {α : Type} (l : List α) (p : α → Bool) :
    (l.filter p).head? = l.find? p := by
  induction l with
  | nil => rfl
  | cons a l ih =>
    by_cases h : p a = true
    · simp [List.filter_cons, List.find?_cons, h]
    · simp only [List.filter_cons, List.find?_cons]
      rw [if_neg (by simpa using h)]
      cases hpa : p a with
      | true => exact absurd hpa h
      | false => exact ih

/-! ### Claim theorems for the classifier -/

/-- C2 counterexample: with table rows `(Alpha, kz), (Beta, ka)` and extracted
keywords `[ka, kz]`, the first discipline in table row order whose keyword
list contains an extracted keyword is `Alpha` (it holds `kz`), but the code
iterates keyword-major and returns `Beta`, the first discipline matching the
first keyword `ka`. -/
theorem C2_counterexample :
    classifyTopic [⟨"Alpha", "kz"⟩, ⟨"Beta", "ka"⟩] ["ka", "kz"] = "Beta" ∧
    firstDisciplineWithAnyMatch [⟨"Alpha", "kz"⟩, ⟨"Beta", "ka"⟩] ["ka", "kz"] =
      some "Alpha" ∧
    ("Beta" : String) ≠ "Alpha" := by
  refine ⟨by decide, by decide, by decide⟩

/-- C2 (amended): classification is a pure function of the table rows and the
extracted keyword list (hence deterministic), and it returns the discipline
of the first match in keyword-major order: for the earliest extracted keyword
occurring in some discipline list, the first discipline in table
first-appearance order containing that keyword; the sentinel when there is no
match.  In particular a discipline with fewer matching keywords never loses
to one with more matches found later. -/
theorem C2_first_hit_keyword_major (rows : List CsvRow) (kws : List String) :
    classifyTopic rows kws =
      ((kws.findSome? (fun k =>
          ((buildDisciplineMap rows []).find? (fun p => decide (k ∈ p.2))).map
            Prod.fst)).getD noMatchSentinel) := by
  unfold classifyTopic
  rw [classifyFold_eq, classifyResult_applyHits_nil]
  congr 1
  rw [totalHits, head?_flatMap, findSome?_map_option]
  congr 1
  funext k
  rw [List.head?_map, Option.map_map]
  have hid : (Prod.fst ∘ fun d : String => (d, pyTitle k)) = id := rfl
  rw [hid, Option.map_id]
  show ((buildDisciplineMap rows []).filter (fun p => decide (k ∈ p.2))
      |>.map Prod.fst).head? = _
  rw [List.head?_map, filter_head?_eq_find?]

/-- C3: when no extracted keyword is a member of any discipline's keyword
list, classification returns the documented sentinel string (no exception is
modelled: the function is total), and uppercasing the sentinel for display is
well defined. -/
theorem C3_no_match_sentinel (rows : List CsvRow) (kws : List String)
    (h : ∀ k ∈ kws, ∀ p ∈ buildDisciplineMap rows [], k ∉ p.2) :
    classifyTopic rows kws = noMatchSentinel ∧
    pyUpperString (classifyTopic rows kws) =
      "NO MATCHING DISCIPLINES FOUND FOR THE TOP KEYWORDS." := by
  have hsent : classifyTopic rows kws = noMatchSentinel := by
    unfold classifyTopic
    rw [classifyFold_eq, classifyResult_applyHits_nil]
    have hnil : totalHits (buildDisciplineMap rows []) kws = [] := by
      unfold totalHits
      rw [List.flatMap_eq_nil_iff]
      intro k hk
      rw [List.map_eq_nil_iff]
      unfold hitsFor
      rw [List.map_eq_nil_iff, List.filter_eq_nil_iff]
      intro p hp
      simpa using h k hk p hp
    rw [hnil]
    rfl
  refine ⟨hsent, ?_⟩
  rw [hsent]
  decide

/-- Witness for C3 at a concrete table and keyword list with no match. -/
theorem C3_no_match_sentinel_witness :
    (∀ k ∈ (["zzz"] : List String), ∀ p ∈ buildDisciplineMap [⟨"Alpha", "kz"⟩] [],
      k ∉ p.2) ∧
    (classifyTopic [⟨"Alpha", "kz"⟩] ["zzz"] = noMatchSentinel ∧
     pyUpperString (classifyTopic [⟨"Alpha", "kz"⟩] ["zzz"]) =
       "NO MATCHING DISCIPLINES FOUND FOR THE TOP KEYWORDS.") :=
  ⟨by decide, C3_no_match_sentinel [⟨"Alpha", "kz"⟩] ["zzz"] (by decide)⟩

/-- C9: in the main pipeline (`Main.py` lines 310-334) the discipline map and
the classification result are built once by `abstract_topic_classification`
and no later operation changes them: the readability scorer passes the state
through unchanged and the keyword extraction at line 313 only reassigns
`keyword_scores` to the value it already holds. -/
theorem C9_no_mutation_after_build (rows : List CsvRow) (abstractChars : List Char)
    (readingEase : ℚ) (lexiconCount : Nat) :
    (let s1 := (abstract_topic_classification rows abstractChars initAnalyzerState).2
     let s2 := (abstract_complexity_method readingEase lexiconCount abstractChars s1).2
     let s3 := (abstract_keywords_method abstractChars s2).2
     s2 = s1 ∧
     s3.discipline_map = s1.discipline_map ∧
     s3.classified_topic = s1.classified_topic ∧
     s3.keyword_scores = s1.keyword_scores) :=
  ⟨rfl, rfl, rfl, rfl⟩

/-! #### Stability of a second classification call (C10) -/

/-- The keys of the association-list dict, in insertion order. -/
def keysOf (m : List (String × List String)) : List String := m.map Prod.fst

/-- The value list stored under a key (empty when absent). -/
def lookupList : List (String × List String) → String → List String
  | [], _ => []
  | (k0, vs) :: rest, k => if k0 = k then vs else lookupList rest k

/-- Two dict states with the same keys in the same order whose value lists
have the same members (they may differ by duplication). -/
def MapMemEquiv (m m' : List (String × List String)) : Prop :=
  List.Forall₂ (fun p q => p.1 = q.1 ∧ ∀ x, x ∈ p.2 ↔ x ∈ q.2) m m'

theorem mapMemEquiv_refl (m : List (String × List String)) : MapMemEquiv m m := by
  induction m with
  | nil => exact List.Forall₂.nil
  | cons p rest ih => exact List.Forall₂.cons ⟨rfl, fun x => Iff.rfl⟩ ih

theorem mapMemEquiv_trans {m1 m2 m3 : List (String × List String)}
    (h12 : MapMemEquiv m1 m2) (h23 : MapMemEquiv m2 m3) : MapMemEquiv m1 m3 := by
  induction h12 generalizing m3 with
  | nil =>
    cases h23
    exact List.Forall₂.nil
  | cons hpq _ ih =>
    cases h23 with
    | cons hqr htail =>
      exact List.Forall₂.cons
        ⟨hpq.1.trans hqr.1, fun x => (hpq.2 x).trans (hqr.2 x)⟩ (ih htail)

theorem mapMemEquiv_keys {m m' : List (String × List String)}
    (h : MapMemEquiv m m') : keysOf m = keysOf m' := by
  induction h with
  | nil => rfl
  | cons hpq _ ih =>
    simp only [keysOf, List.map_cons] at ih ⊢
    rw [hpq.1, ih]

theorem mapMemEquiv_lookup_mem {m m' : List (String × List String)}
    (h : MapMemEquiv m m') (k x : String) :
    x ∈ lookupList m k ↔ x ∈ lookupList m' k := by
  induction h with
  | nil => exact Iff.rfl
  | @cons p q m1 m2 hpq htail ih =>
    obtain ⟨k0, vs⟩ := p
    obtain ⟨k1, vs1⟩ := q
    have hk01 : k0 = k1 := hpq.1
    subst hk01
    by_cases hkk : k0 = k
    · simpa [lookupList, hkk] using hpq.2 x
    · simpa [lookupList, hkk] using ih

theorem keysOf_setdefaultAppend (m : List (String × List String)) (k v : String) :
    keysOf (setdefaultAppend m k v) =
      if k ∈ keysOf m then keysOf m else keysOf m ++ [k] := by
  induction m with
  | nil => simp [setdefaultAppend, keysOf]
  | cons p rest ih =>
    obtain ⟨k0, vs⟩ := p
    by_cases h0 : k0 = k
    · subst h0
      simp [setdefaultAppend, keysOf]
    · have hkne : k ≠ k0 := fun hk => h0 hk.symm
      simp only [keysOf, List.map_cons] at ih ⊢
      simp only [setdefaultAppend, if_neg h0, List.map_cons]
      rw [ih]
      by_cases hmem : k ∈ List.map Prod.fst rest
      · rw [if_pos hmem, if_pos (List.mem_cons_of_mem _ hmem)]
      · rw [if_neg hmem, if_neg ?_, List.cons_append]
        intro hk
        rcases List.mem_cons.mp hk with h | h
        · exact hkne h
        · exact hmem h

theorem lookupList_setdefaultAppend (m : List (String × List String)) (k v k2 : String) :
    lookupList (setdefaultAppend m k v) k2 =
      if k2 = k then lookupList m k ++ [v] else lookupList m k2 := by
  induction m with
  | nil =>
    by_cases h : k2 = k
    · subst h
      simp [setdefaultAppend, lookupList]
    · have hkk : ¬ k = k2 := fun hk => h hk.symm
      simp [setdefaultAppend, lookupList, h, hkk]
  | cons p rest ih =>
    obtain ⟨k0, vs⟩ := p
    by_cases h0 : k0 = k
    · subst h0
      by_cases h2 : k2 = k0
      · subst h2
        simp [setdefaultAppend, lookupList]
      · have hkk : ¬ k0 = k2 := fun hk => h2 hk.symm
        simp [setdefaultAppend, lookupList, h2, hkk]
    · by_cases h1 : k0 = k2
      · subst h1
        simp [setdefaultAppend, h0, lookupList]
      · simp [setdefaultAppend, h0, lookupList, h1, ih]

theorem mapMemEquiv_setdefault_existing {m : List (String × List String)}
    {k v : String} (hk : k ∈ keysOf m) (hv : v ∈ lookupList m k) :
    MapMemEquiv m (setdefaultAppend m k v) := by
  induction m with
  | nil => simp [keysOf] at hk
  | cons p rest ih =>
    obtain ⟨k0, vs⟩ := p
    by_cases h0 : k0 = k
    · subst h0
      have hvs : v ∈ vs := by simpa [lookupList] using hv
      simp only [setdefaultAppend, if_pos rfl]
      refine List.Forall₂.cons ⟨rfl, fun x => ?_⟩ (mapMemEquiv_refl rest)
      constructor
      · intro hx
        exact List.mem_append_left _ hx
      · intro hx
        rcases List.mem_append.mp hx with hx | hx
        · exact hx
        · rw [List.mem_singleton.mp hx]
          exact hvs
    · have hk' : k ∈ keysOf rest := by
        rcases (by simpa [keysOf] using hk : k = k0 ∨ k ∈ keysOf rest) with h | h
        · exact absurd h.symm h0
        · exact h
      have hv' : v ∈ lookupList rest k := by simpa [lookupList, h0] using hv
      simp only [setdefaultAppend, if_neg h0]
      exact List.Forall₂.cons ⟨rfl, fun x => Iff.rfl⟩ (ih hk' hv')

theorem keysOf_build_mono (rows : List CsvRow) (m : List (String × List String))
    (k : String) (h : k ∈ keysOf m) : k ∈ keysOf (buildDisciplineMap rows m) := by
  induction rows generalizing m with
  | nil => exact h
  | cons r rows ih =>
    apply ih
    rw [keysOf_setdefaultAppend]
    by_cases hmem : pyStrip r.discipline ∈ keysOf m
    · rwa [if_pos hmem]
    · rw [if_neg hmem]
      exact List.mem_append_left _ h

theorem lookupList_build_mono (rows : List CsvRow) (m : List (String × List String))
    (k x : String) (h : x ∈ lookupList m k) :
    x ∈ lookupList (buildDisciplineMap rows m) k := by
  induction rows generalizing m with
  | nil => exact h
  | cons r rows ih =>
    apply ih
    rw [lookupList_setdefaultAppend]
    by_cases hk : k = pyStrip r.discipline
    · rw [if_pos hk]
      exact List.mem_append_left _ (hk ▸ h)
    · rwa [if_neg hk]

theorem buildDisciplineMap_cons (r : CsvRow) (rows : List CsvRow)
    (m : List (String × List String)) :
    buildDisciplineMap (r :: rows) m =
      buildDisciplineMap rows
        (setdefaultAppend m (pyStrip r.discipline) (pyLower (pyStrip r.keyword))) := rfl

theorem build_mem_of_row (rows : List CsvRow) (m : List (String × List String))
    (row : CsvRow) (hrow : row ∈ rows) :
    pyStrip row.discipline ∈ keysOf (buildDisciplineMap rows m) ∧
    pyLower (pyStrip row.keyword) ∈
      lookupList (buildDisciplineMap rows m) (pyStrip row.discipline) := by
  induction rows generalizing m with
  | nil => cases hrow
  | cons r rows ih =>
    rw [buildDisciplineMap_cons]
    rcases List.mem_cons.mp hrow with hr | hr
    · subst hr
      constructor
      · apply keysOf_build_mono
        rw [keysOf_setdefaultAppend]
        by_cases hmem : pyStrip row.discipline ∈ keysOf m
        · rwa [if_pos hmem]
        · rw [if_neg hmem]
          exact List.mem_append_right _ (List.mem_singleton_self _)
      · apply lookupList_build_mono
        rw [lookupList_setdefaultAppend, if_pos rfl]
        exact List.mem_append_right _ (List.mem_singleton_self _)
    · exact ih _ hr

theorem mapMemEquiv_build (rows : List CsvRow) (m : List (String × List String))
    (h : ∀ row ∈ rows, pyStrip row.discipline ∈ keysOf m ∧
      pyLower (pyStrip row.keyword) ∈ lookupList m (pyStrip row.discipline)) :
    MapMemEquiv m (buildDisciplineMap rows m) := by
  induction rows generalizing m with
  | nil => exact mapMemEquiv_refl m
  | cons r rows ih =>
    have hr := h r (List.mem_cons_self r rows)
    have hstep : MapMemEquiv m
        (setdefaultAppend m (pyStrip r.discipline) (pyLower (pyStrip r.keyword))) :=
      mapMemEquiv_setdefault_existing hr.1 hr.2
    have hkeys := mapMemEquiv_keys hstep
    have hrest : ∀ row ∈ rows, pyStrip row.discipline ∈
        keysOf (setdefaultAppend m (pyStrip r.discipline) (pyLower (pyStrip r.keyword))) ∧
        pyLower (pyStrip row.keyword) ∈
          lookupList (setdefaultAppend m (pyStrip r.discipline) (pyLower (pyStrip r.keyword)))
            (pyStrip row.discipline) := by
      intro row hrowmem
      have hm := h row (List.mem_cons_of_mem r hrowmem)
      exact ⟨hkeys ▸ hm.1, (mapMemEquiv_lookup_mem hstep _ _).mp hm.2⟩
    exact mapMemEquiv_trans hstep (ih _ hrest)

/-- The discipline map after a second CSV read is member-equivalent to the
map after the first read: same keys in the same order, value lists with the
same members (duplicated). -/
theorem mapMemEquiv_second_read (rows : List CsvRow) :
    MapMemEquiv (buildDisciplineMap rows [])
      (buildDisciplineMap rows (buildDisciplineMap rows [])) :=
  mapMemEquiv_build rows (buildDisciplineMap rows [])
    (fun row hrow => build_mem_of_row rows [] row hrow)

theorem hitsFor_equiv {m m' : List (String × List String)}
    (h : MapMemEquiv m m') (k : String) : hitsFor m k = hitsFor m' k := by
  induction h with
  | nil => rfl
  | @cons p q m1 m2 hpq htail ih =>
    unfold hitsFor at ih ⊢
    rw [List.filter_cons, List.filter_cons]
    by_cases hk : k ∈ p.2
    · have hk2 : k ∈ q.2 := (hpq.2 k).mp hk
      rw [if_pos (decide_eq_true hk), if_pos (decide_eq_true hk2),
        List.map_cons, List.map_cons, hpq.1, ih]
    · have hk2 : k ∉ q.2 := fun hq => hk ((hpq.2 k).mpr hq)
      rw [if_neg (by simpa using hk), if_neg (by simpa using hk2)]
      exact ih

theorem totalHits_equiv {m m' : List (String × List String)}
    (h : MapMemEquiv m m') (kws : List String) : totalHits m kws = totalHits m' kws := by
  unfold totalHits
  induction kws with
  | nil => rfl
  | cons k kws ih =>
    simp only [List.flatMap_cons, hitsFor_equiv h, ih]

/-- C10: calling `abstract_topic_classification` a second time on the same
analyzer object with the same abstract and the same table contents returns
the same string as the first call, even though the second call re-reads the
table and appends further entries to the internal maps. -/
theorem C10_second_call_stable (rows : List CsvRow) (abstractChars : List Char) :
    (abstract_topic_classification rows abstractChars
        ((abstract_topic_classification rows abstractChars initAnalyzerState).2)).1 =
      (abstract_topic_classification rows abstractChars initAnalyzerState).1 := by
  have hth := totalHits_equiv (mapMemEquiv_second_read rows)
    ((abstract_keywords abstractChars).map Prod.fst)
  show classifyResult
      (classifyFold (buildDisciplineMap rows (buildDisciplineMap rows []))
        ((abstract_keywords abstractChars).map Prod.fst)
        (classifyFold (buildDisciplineMap rows [])
          ((abstract_keywords abstractChars).map Prod.fst) [])) =
    classifyResult
      (classifyFold (buildDisciplineMap rows [])
        ((abstract_keywords abstractChars).map Prod.fst) [])
  rw [classifyFold_eq, classifyFold_eq, ← hth]
  generalize totalHits (buildDisciplineMap rows [])
    ((abstract_keywords abstractChars).map Prod.fst) = H
  cases H with
  | nil => rfl
  | cons dv hs =>
    obtain ⟨d, v⟩ := dv
    have h1 : applyHits ([] : List (String × List String)) ((d, v) :: hs) =
        applyHits [(d, [v])] hs := rfl
    rw [h1]
    exact classifyResult_applyHits _ _ (applyHits_ne_nil hs [(d, [v])] (by simp))

/-! ### Report writer and error handling (`Main.py`, `save_abstract_analysis`) -/

/-- The possible outcomes of `open(...)` plus the write, as seen by the
`try` block at `Main.py` lines 33-53. -/
inductive WriteAttempt where
  | success : WriteAttempt
  | fileNotFound (msg : String) : WriteAttempt
  | otherFault (msg : String) : WriteAttempt
deriving DecidableEq, Repr

/-- What a run of `save_abstract_analysis` does: content written to the file
(if any), console output, and a fault that escapes the function (if any). -/
structure SaveOutcome where
  fileWritten : Option String
  console : List String
  uncaught : Option String
deriving DecidableEq, Repr

/-- `save_abstract_analysis` (`Main.py` lines 12-55) after the filename and
format prompts have settled: when the decision is `yes` the file body
(already serialised by the caller of this model) is written inside a `try`
that catches exactly `FileNotFoundError`, printing the underlying message and
continuing; any other fault escapes uncaught.  When the decision is not
`yes`, only a closing message is printed. -/
def save_abstract_analysis (save : String) (userFormat : String) (content : String)
    (attempt : WriteAttempt) : SaveOutcome :=
  if save = "yes" then
    match attempt with
    | .success =>
      if userFormat = "text" then
        ⟨some content, ["The Abstract Analysis is saved as a text file\nThank You!!!"], none⟩
      else
        ⟨some content, ["The Abstract Analysis is saved as a Json file\nThank You!!!"], none⟩
    | .fileNotFound m => ⟨none, ["Error:\n" ++ m ++ "\nFILE NOT SAVED"], none⟩
    | .otherFault m => ⟨none, [], some m⟩
  else ⟨none, ["Thanks for using the Abstract Analysis Tools"], none⟩

/-- `abstract_topic_classification` including the unguarded
`pd.read_csv("Abstract_keywords.csv")` call at `Main.py` line 261: a failing
table read is wrapped by no handler and propagates. -/
def abstract_topic_classification_io (tableRead : Except String (List CsvRow))
    (abstractChars : List Char) (st : AnalyzerState) :
    Except String (String × AnalyzerState) :=
  match tableRead with
  | .error e => .error e
  | .ok rows => .ok (abstract_topic_classification rows abstractChars st)

/-- C8: with decision `yes`, a file-not-found failure during the open is
caught: the run ends normally (nothing uncaught), no file is written, and the
console shows the underlying message; any other fault during the save
propagates uncaught, and so does a failure of the discipline-table read in
the classifier, which has no handler at all. -/
theorem C8_save_error_handling (fmt content m e : String)
    (abstractChars : List Char) (st : AnalyzerState) :
    (save_abstract_analysis "yes" fmt content (.fileNotFound m)).uncaught = none ∧
    (save_abstract_analysis "yes" fmt content (.fileNotFound m)).fileWritten = none ∧
    (save_abstract_analysis "yes" fmt content (.fileNotFound m)).console =
      ["Error:\n" ++ m ++ "\nFILE NOT SAVED"] ∧
    (save_abstract_analysis "yes" fmt content (.otherFault e)).uncaught = some e ∧
    (save_abstract_analysis "yes" fmt content (.otherFault e)).fileWritten = none ∧
    abstract_topic_classification_io (.error e) abstractChars st = .error e := by
  refine ⟨?_, ?_, ?_, ?_, ?_, rfl⟩ <;> simp [save_abstract_analysis]

/-! ### JSON serialisation of the report (`Main.py` lines 38-50)

The `data` dict built for the JSON branch is flat: string values, two
integer counters, one rounded float, and one array of strings.  The model
serialises it exactly as `json.dumps(data, indent=4)` lays this shape out
(ASCII model; the rounded float is carried as an exact number of
hundredths), and provides a character-level parser for the same grammar so
that the round trip can be stated. -/

/-- Opening brace character (U+007B). -/
def lbrace : Char := Char.ofNat 123

/-- Closing brace character (U+007D). -/
def rbrace : Char := Char.ofNat 125

/-- A JSON value of the flat report shape. -/
inductive JVal where
  | jstr (s : String)
  | jint (i : Int)
  | jdec (hundredths : Int)
  | jstrArr (xs : List String)
deriving DecidableEq, Repr

/-- The data assembled for the JSON file, one field per dict entry of
`Main.py` lines 39-47.  The score is the reading-ease float in exact
hundredths. -/
structure ReportData where
  name : String
  researchTopic : String
  totalWords : Nat
  totalChars : Nat
  scoreHundredths : Int
  feedback : String
  keywords : List (String × String)
deriving DecidableEq, Repr

/-- The dict literal of `Main.py` lines 39-47, keys in source order; the
`keywords` entry is the comprehension `[f"{key}:{value}%" ...]` over the
keyword dict. -/
def reportFields (d : ReportData) : List (String × JVal) :=
  [("name", .jstr d.name),
   ("research topic", .jstr d.researchTopic),
   ("total words", .jint (d.totalWords : Int)),
   ("total characters", .jint (d.totalChars : Int)),
   ("readability scores", .jdec d.scoreHundredths),
   ("feedback", .jstr d.feedback),
   ("keywords", .jstrArr (d.keywords.map (fun p => p.1 ++ ":" ++ p.2 ++ "%")))]

/-- Decimal digits of `n`, most significant first, by fuel recursion. -/
def natChars (fuel n : Nat) : List Char :=
  match fuel with
  | 0 => []
  | fuel + 1 => if n < 10 then [digitChar n] else natChars fuel (n / 10) ++ [digitChar (n % 10)]

/-- Decimal numeral of a natural number. -/
def natStr (n : Nat) : List Char := natChars (n + 1) n

/-- Decimal numeral of an integer. -/
def intStr (i : Int) : List Char :=
  if i < 0 then '-' :: natStr i.natAbs else natStr i.natAbs

/-- Fraction digits Python prints for a float that is an exact number of
hundredths: `.0` when zero, one digit for a multiple of a tenth, two digits
otherwise. -/
def decFracChars (f : Nat) : List Char :=
  if f = 0 then ['0']
  else if f % 10 = 0 then [digitChar (f / 10)]
  else [digitChar (f / 10), digitChar (f % 10)]

/-- Rendering of the rounded reading-ease value (`hundredths / 100`). -/
def decStr (h : Int) : List Char :=
  (if h < 0 then ['-'] else []) ++ natStr (h.natAbs / 100) ++ '.' :: decFracChars (h.natAbs % 100)

/-- A JSON string literal (the report strings contain nothing needing an
escape; see `jsonSafe`). -/
def quoteStr (s : String) : List Char := '"' :: s.data ++ ['"']

/-- `n` spaces of indentation. -/
def indentSp (n : Nat) : List Char := List.replicate n ' '

/-- The elements of the keywords array, one per line at indent 8, separated
by commas, as `json.dumps(..., indent=4)` prints a nested list. -/
def arrElemChars : List String → List Char
  | [] => []
  | [x] => indentSp 8 ++ quoteStr x
  | x :: xs => indentSp 8 ++ quoteStr x ++ ',' :: '\n' :: arrElemChars xs

/-- Layout of one JSON value in value position at depth 1. -/
def jvalChars : JVal → List Char
  | .jstr s => quoteStr s
  | .jint i => intStr i
  | .jdec h => decStr h
  | .jstrArr [] => ['[', ']']
  | .jstrArr (x :: xs) =>
    '[' :: '\n' :: (arrElemChars (x :: xs) ++ '\n' :: (indentSp 4 ++ [']']))

/-- One `"key": value` field at indent 4. -/
def fieldChars (f : String × JVal) : List Char :=
  indentSp 4 ++ quoteStr f.1 ++ ':' :: ' ' :: jvalChars f.2

/-- The comma-and-newline separated field lines. -/
def objFieldsChars : List (String × JVal) → List Char
  | [] => []
  | [f] => fieldChars f
  | f :: fs => fieldChars f ++ ',' :: '\n' :: objFieldsChars fs

/-- `json.dumps(data, indent=4)` for the report dict. -/
def dumpsObj (fields : List (String × JVal)) : List Char :=
  match fields with
  | [] => [lbrace, rbrace]
  | _ => lbrace :: '\n' :: (objFieldsChars fields ++ ['\n', rbrace])

/-- The JSON text written by the `json` branch of `save_abstract_analysis`
(`Main.py` lines 39-50). -/
def reportJsonText (d : ReportData) : String := ⟨dumpsObj (reportFields d)⟩

/-! #### A parser for the same grammar (model of `json.loads` on this shape) -/

/-- JSON insignificant whitespace. -/
def isWsChar (c : Char) : Bool := c = ' ' || c = '\n' || c = '\t' || c = '\r'

/-- Skip insignificant whitespace. -/
def skipWs : List Char → List Char
  | c :: cs => if isWsChar c then skipWs cs else c :: cs
  | [] => []

/-- After an opening quote: the contents up to the closing quote. -/
def takeStrBody : List Char → Option (List Char × List Char)
  | [] => none
  | c :: cs =>
    if c = '"' then some ([], cs)
    else
      match takeStrBody cs with
      | some (body, rest) => some (c :: body, rest)
      | none => none

/-- Read a quoted string literal. -/
def readQuoted : List Char → Option (String × List Char)
  | c :: cs =>
    if c = '"' then (takeStrBody cs).map (fun br => ((⟨br.1⟩ : String), br.2)) else none
  | [] => none

/-- The longest digit prefix. -/
def takeDigits : List Char → List Char × List Char
  | c :: cs =>
    if c.isDigit then
      match takeDigits cs with
      | (ds, r) => (c :: ds, r)
    else ([], c :: cs)
  | [] => ([], [])

/-- Value of a digit string. -/
def digitsVal (ds : List Char) : Nat :=
  ds.foldl (fun a c => 10 * a + (c.toNat - 48)) 0

/-- Negate a parsed number. -/
def negJVal : JVal → JVal
  | .jint i => .jint (-i)
  | .jdec h => .jdec (-h)
  | v => v

/-- Read an unsigned number: an integer, or a decimal with one or two
fraction digits (the only shapes the serialiser emits). -/
def readNumCore (cs : List Char) : Option (JVal × List Char) :=
  match takeDigits cs with
  | (ids, cs2) =>
    if ids.isEmpty then none
    else
      match cs2 with
      | c :: cs3 =>
        if c = '.' then
          match takeDigits cs3 with
          | ([f1], cs4) =>
            some (.jdec ((digitsVal ids * 100 + (f1.toNat - 48) * 10 : Nat) : Int), cs4)
          | ([f1, f2], cs4) =>
            some (.jdec ((digitsVal ids * 100 + (f1.toNat - 48) * 10 + (f2.toNat - 48) : Nat) : Int),
              cs4)
          | _ => none
        else some (.jint ((digitsVal ids : Nat) : Int), c :: cs3)
      | [] => some (.jint ((digitsVal ids : Nat) : Int), [])

/-- Read a possibly signed number. -/
def readNum : List Char → Option (JVal × List Char)
  | c :: cs =>
    if c = '-' then (readNumCore cs).map (fun vr => (negJVal vr.1, vr.2))
    else readNumCore (c :: cs)
  | [] => none

/-- Read the elements of a non-empty string array, positioned at the first
quote; consumes the closing bracket. -/
def readArrRest : Nat → List Char → Option (List String × List Char)
  | 0, _ => none
  | fuel + 1, cs =>
    match readQuoted cs with
    | none => none
    | some (s, cs1) =>
      match skipWs cs1 with
      | c :: cs3 =>
        if c = ',' then
          match readArrRest fuel (skipWs cs3) with
          | some (ss, rest) => some (s :: ss, rest)
          | none => none
        else if c = ']' then some ([s], cs3) else none
      | [] => none

/-- Read a string array, positioned after the opening bracket. -/
def readStrArr (fuel : Nat) (cs : List Char) : Option (List String × List Char) :=
  match skipWs cs with
  | c :: cs2 => if c = ']' then some ([], cs2) else readArrRest fuel (c :: cs2)
  | [] => none

/-- Read one JSON value of the report grammar (an array gets a fuel bound
computed from the remaining input, which the elements cannot exceed). -/
def readVal (cs : List Char) : Option (JVal × List Char) :=
  match cs with
  | [] => none
  | c :: cs1 =>
    if c = '"' then (takeStrBody cs1).map (fun br => (.jstr (⟨br.1⟩ : String), br.2))
    else if c = '[' then (readStrArr (cs1.length + 1) cs1).map (fun xr => (.jstrArr xr.1, xr.2))
    else readNum (c :: cs1)

/-- Read the fields of a non-empty object, positioned anywhere before the
first key; consumes the closing brace. -/
def readFields : Nat → List Char → Option (List (String × JVal) × List Char)
  | 0, _ => none
  | fuel + 1, cs =>
    match readQuoted (skipWs cs) with
    | none => none
    | some (k, cs1) =>
      match skipWs cs1 with
      | c0 :: cs2 =>
        if c0 = ':' then
          match readVal (skipWs cs2) with
          | none => none
          | some (v, cs3) =>
            match skipWs cs3 with
            | c :: cs4 =>
              if c = ',' then
                match readFields fuel cs4 with
                | some (fs, rest) => some ((k, v) :: fs, rest)
                | none => none
              else if c = rbrace then some ([(k, v)], cs4) else none
            | [] => none
        else none
      | [] => none

/-- Parse a whole JSON document of the report shape (model of `json.loads`
restricted to this grammar). -/
def parseJson (cs : List Char) : Option (List (String × JVal)) :=
  match skipWs cs with
  | [] => none
  | c :: cs1 =>
    if c = lbrace then
      match skipWs cs1 with
      | [] => none
      | c2 :: cs2 =>
        if c2 = rbrace then (if skipWs cs2 = [] then some [] else none)
        else
          match readFields (cs1.length + 1) (c2 :: cs2) with
          | some (fs, rest) => if skipWs rest = [] then some fs else none
          | none => none
    else none

/-! #### Round-trip lemmas -/

/-- Report strings that serialise byte-for-byte like `json.dumps` writes
them: no quote, no backslash, no control character (nothing needing a JSON
escape). -/
def jsonSafe (s : String) : Prop :=
  ∀ c ∈ s.data, c ≠ '"' ∧ c ≠ '\\' ∧ 32 ≤ c.toNat

instance (s : String) : Decidable (jsonSafe s) := by
  unfold jsonSafe; infer_instance

theorem skipWs_not_ws {c : Char} (h : isWsChar c = false) (cs : List Char) :
    skipWs (c :: cs) = c :: cs := by
  simp [skipWs, h]

theorem skipWs_newline (cs : List Char) : skipWs ('\n' :: cs) = skipWs cs := by
  have h : isWsChar '\n' = true := by decide
  simp [skipWs, h]

theorem skipWs_indent (n : Nat) (cs : List Char) :
    skipWs (indentSp n ++ cs) = skipWs cs := by
  induction n with
  | zero => rfl
  | succ n ih =>
    have h : isWsChar ' ' = true := by decide
    simpa [indentSp, List.replicate_succ, skipWs, h] using ih

theorem takeStrBody_append (body rest : List Char) (h : ∀ c ∈ body, c ≠ '"') :
    takeStrBody (body ++ '"' :: rest) = some (body, rest) := by
  induction body with
  | nil => simp [takeStrBody]
  | cons c body ih =>
    have hc : c ≠ '"' := h c (List.mem_cons_self c body)
    rw [List.cons_append, takeStrBody, if_neg hc,
      ih (fun x hx => h x (List.mem_cons_of_mem c hx))]

theorem readQuoted_append (s : String) (rest : List Char) (h : jsonSafe s) :
    readQuoted (quoteStr s ++ rest) = some (s, rest) := by
  have hq : ∀ c ∈ s.data, c ≠ '"' := fun c hc => (h c hc).1
  show readQuoted ('"' :: (s.data ++ ['"']) ++ rest) = some (s, rest)
  rw [List.cons_append, List.append_assoc]
  rw [readQuoted, if_pos rfl]
  rw [show ['"'] ++ rest = '"' :: rest from rfl]
  rw [takeStrBody_append s.data rest hq]
  rfl

theorem digitChar_toNat {d : Nat} (h : d < 10) : (digitChar d).toNat = 48 + d :=
  char_toNat_ofNat (Or.inl (by omega))

theorem digitChar_ne_quote {d : Nat} (h : d < 10) : digitChar d ≠ '"' := by
  intro he
  have := digitChar_toNat h
  rw [he] at this
  have h34 : ('"' : Char).toNat = 34 := rfl
  omega

theorem natChars_all_digits (fuel : Nat) : ∀ n, ∀ c ∈ natChars fuel n, c.isDigit = true := by
  induction fuel with
  | zero => intro n c hc; simp [natChars] at hc
  | succ fuel ih =>
    intro n c hc
    rw [natChars] at hc
    by_cases h : n < 10
    · rw [if_pos h] at hc
      rw [List.mem_singleton.mp hc]
      exact digitChar_isDigit h
    · rw [if_neg h] at hc
      rcases List.mem_append.mp hc with hc | hc
      · exact ih _ c hc
      · rw [List.mem_singleton.mp hc]
        exact digitChar_isDigit (Nat.mod_lt n (by omega))

theorem natChars_ne_nil (fuel n : Nat) (h : 0 < fuel) : natChars fuel n ≠ [] := by
  cases fuel with
  | zero => omega
  | succ fuel =>
    rw [natChars]
    by_cases hn : n < 10
    · simp [hn]
    · simp [hn]

theorem natStr_all_digits (n : Nat) : ∀ c ∈ natStr n, c.isDigit = true :=
  natChars_all_digits (n + 1) n

theorem natStr_ne_nil (n : Nat) : natStr n ≠ [] := natChars_ne_nil (n + 1) n (by omega)

/-- The list after a digit run stops the run: empty, or starting with a
non-digit. -/
def nextNonDigit : List Char → Prop
  | [] => True
  | c :: _ => c.isDigit = false

theorem takeDigits_of_digits (ds rest : List Char)
    (hds : ∀ c ∈ ds, c.isDigit = true) (hrest : nextNonDigit rest) :
    takeDigits (ds ++ rest) = (ds, rest) := by
  induction ds with
  | nil =>
    cases rest with
    | nil => rfl
    | cons c r =>
      have : c.isDigit = false := hrest
      simp [takeDigits, this]
  | cons c ds ih =>
    have hc : c.isDigit = true := hds c (List.mem_cons_self c ds)
    rw [List.cons_append, takeDigits]
    rw [if_pos hc, ih (fun x hx => hds x (List.mem_cons_of_mem c hx))]

theorem digitsVal_append_one (ds : List Char) (d : Char) :
    digitsVal (ds ++ [d]) = 10 * digitsVal ds + (d.toNat - 48) := by
  unfold digitsVal
  rw [List.foldl_append]
  rfl

theorem digitsVal_natChars (fuel : Nat) : ∀ n, n < 10 ^ fuel →
    digitsVal (natChars fuel n) = n := by
  induction fuel with
  | zero =>
    intro n hn
    interval_cases n
    rfl
  | succ fuel ih =>
    intro n hn
    rw [natChars]
    by_cases h : n < 10
    · rw [if_pos h]
      show digitsVal ([] ++ [digitChar n]) = n
      rw [digitsVal_append_one, digitChar_toNat h]
      simp [digitsVal]
    · rw [if_neg h, digitsVal_append_one, ih (n / 10) ?_, digitChar_toNat (by omega)]
      · omega
      · rw [pow_succ] at hn
        omega

theorem digitsVal_natStr (n : Nat) : digitsVal (natStr n) = n := by
  apply digitsVal_natChars
  calc n < 10 ^ n := Nat.lt_pow_self (by omega) n
    _ ≤ 10 ^ (n + 1) := Nat.pow_le_pow_right (by omega) (by omega)

/-- The list after a number stops it: empty, or starting with a character
that is neither a digit nor a dot. -/
def nextNonNum : List Char → Prop
  | [] => True
  | c :: _ => c.isDigit = false ∧ c ≠ '.'

theorem nextNonNum_digit (rest : List Char) (h : nextNonNum rest) : nextNonDigit rest := by
  cases rest with
  | nil => trivial
  | cons c r => exact h.1

theorem digit_ne_special {c : Char} (h : c.isDigit = true) :
    c ≠ '-' ∧ c ≠ '.' ∧ c ≠ '"' ∧ c ≠ '[' := by
  rw [isDigit_iff] at h
  refine ⟨?_, ?_, ?_, ?_⟩ <;> intro he <;> rw [he] at h
  · have : ('-' : Char).toNat = 45 := rfl
    omega
  · have : ('.' : Char).toNat = 46 := rfl
    omega
  · have : ('"' : Char).toNat = 34 := rfl
    omega
  · have : ('[' : Char).toNat = 91 := rfl
    omega

theorem natStr_isEmpty_false (n : Nat) : (natStr n).isEmpty = false := by
  cases h : natStr n with
  | nil => exact absurd h (natStr_ne_nil n)
  | cons c cs => rfl

theorem readNumCore_nat (n : Nat) (rest : List Char) (hrest : nextNonNum rest) :
    readNumCore (natStr n ++ rest) = some (.jint (n : Int), rest) := by
  rw [readNumCore,
    takeDigits_of_digits (natStr n) rest (natStr_all_digits n) (nextNonNum_digit rest hrest)]
  simp only [natStr_isEmpty_false, Bool.false_eq_true, if_false]
  cases rest with
  | nil => rw [digitsVal_natStr]
  | cons c r =>
    have hc : ¬ c = '.' := hrest.2
    simp only [if_neg hc, digitsVal_natStr]

theorem decFracChars_all_digits (f : Nat) (hf : f < 100) :
    ∀ c ∈ decFracChars f, c.isDigit = true := by
  intro c hc
  unfold decFracChars at hc
  by_cases h0 : f = 0
  · rw [if_pos h0] at hc
    rw [List.mem_singleton.mp hc]
    decide
  · rw [if_neg h0] at hc
    by_cases h1 : f % 10 = 0
    · rw [if_pos h1] at hc
      rw [List.mem_singleton.mp hc]
      exact @digitChar_isDigit (f / 10) (by omega)
    · rw [if_neg h1] at hc
      rcases List.mem_cons.mp hc with h | h
      · rw [h]
        exact @digitChar_isDigit (f / 10) (by omega)
      · rw [List.mem_singleton.mp h]
        exact @digitChar_isDigit (f % 10) (by omega)

theorem readNumCore_dec (a f : Nat) (hf : f < 100) (rest : List Char)
    (hrest : nextNonNum rest) :
    readNumCore (natStr a ++ '.' :: (decFracChars f ++ rest)) =
      some (.jdec ((a * 100 + f : Nat) : Int), rest) := by
  have hdot : nextNonDigit ('.' :: (decFracChars f ++ rest)) := by
    show ('.' : Char).isDigit = false
    decide
  rw [readNumCore, takeDigits_of_digits (natStr a) _ (natStr_all_digits a) hdot]
  simp only [natStr_isEmpty_false, Bool.false_eq_true, if_false, if_pos rfl]
  rw [takeDigits_of_digits (decFracChars f) rest (decFracChars_all_digits f hf)
    (nextNonNum_digit rest hrest)]
  by_cases h0 : f = 0
  · have hd : decFracChars f = ['0'] := by
      unfold decFracChars
      rw [if_pos h0]
    rw [hd]
    show some (JVal.jdec ((digitsVal (natStr a) * 100 + (('0' : Char).toNat - 48) * 10 : Nat) : Int),
        rest) = some (JVal.jdec ((a * 100 + f : Nat) : Int), rest)
    have hnat : (digitsVal (natStr a) * 100 + (('0' : Char).toNat - 48) * 10 : Nat) =
        a * 100 + f := by
      rw [digitsVal_natStr]
      have h48 : ('0' : Char).toNat = 48 := rfl
      omega
    rw [hnat]
  · by_cases h1 : f % 10 = 0
    · have hd : decFracChars f = [digitChar (f / 10)] := by
        unfold decFracChars
        rw [if_neg h0, if_pos h1]
      rw [hd]
      show some (JVal.jdec ((digitsVal (natStr a) * 100 +
          ((digitChar (f / 10)).toNat - 48) * 10 : Nat) : Int), rest) =
        some (JVal.jdec ((a * 100 + f : Nat) : Int), rest)
      have hnat : (digitsVal (natStr a) * 100 + ((digitChar (f / 10)).toNat - 48) * 10 : Nat) =
          a * 100 + f := by
        rw [digitsVal_natStr, @digitChar_toNat (f / 10) (by omega)]
        omega
      rw [hnat]
    · have hd : decFracChars f = [digitChar (f / 10), digitChar (f % 10)] := by
        unfold decFracChars
        rw [if_neg h0, if_neg h1]
      rw [hd]
      show some (JVal.jdec ((digitsVal (natStr a) * 100 + ((digitChar (f / 10)).toNat - 48) * 10 +
          ((digitChar (f % 10)).toNat - 48) : Nat) : Int), rest) =
        some (JVal.jdec ((a * 100 + f : Nat) : Int), rest)
      have hnat : (digitsVal (natStr a) * 100 + ((digitChar (f / 10)).toNat - 48) * 10 +
          ((digitChar (f % 10)).toNat - 48) : Nat) = a * 100 + f := by
        rw [digitsVal_natStr, @digitChar_toNat (f / 10) (by omega),
          @digitChar_toNat (f % 10) (by omega)]
        omega
      rw [hnat]

theorem readNum_intStr (i : Int) (rest : List Char) (hrest : nextNonNum rest) :
    readNum (intStr i ++ rest) = some (.jint i, rest) := by
  unfold intStr
  by_cases hneg : i < 0
  · rw [if_pos hneg, List.cons_append, readNum, if_pos rfl,
      readNumCore_nat i.natAbs rest hrest]
    show some (negJVal (JVal.jint ((i.natAbs : Nat) : Int)), rest) = some (JVal.jint i, rest)
    have hneq : negJVal (JVal.jint ((i.natAbs : Nat) : Int)) = JVal.jint i := by
      show JVal.jint (-((i.natAbs : Nat) : Int)) = JVal.jint i
      have hi : -((i.natAbs : Nat) : Int) = i := by omega
      rw [hi]
    rw [hneq]
  · rw [if_neg hneg]
    cases hns : natStr i.natAbs with
    | nil => exact absurd hns (natStr_ne_nil _)
    | cons c cs =>
      have hc : c.isDigit = true := by
        apply natStr_all_digits i.natAbs
        rw [hns]
        exact List.mem_cons_self c cs
      rw [List.cons_append, readNum, if_neg (digit_ne_special hc).1, ← List.cons_append, ← hns,
        readNumCore_nat i.natAbs rest hrest]
      have hi : ((i.natAbs : Nat) : Int) = i := by omega
      rw [hi]

theorem readNum_decStr (h : Int) (rest : List Char) (hrest : nextNonNum rest) :
    readNum (decStr h ++ rest) = some (.jdec h, rest) := by
  have hmod : h.natAbs % 100 < 100 := Nat.mod_lt _ (by omega)
  unfold decStr
  by_cases hneg : h < 0
  · rw [if_pos hneg]
    show readNum ('-' :: (natStr (h.natAbs / 100) ++ '.' :: decFracChars (h.natAbs % 100) ++ rest))
        = some (.jdec h, rest)
    rw [readNum, if_pos rfl, List.append_assoc, List.cons_append,
      readNumCore_dec (h.natAbs / 100) (h.natAbs % 100) hmod rest hrest]
    show some (negJVal (JVal.jdec ((h.natAbs / 100 * 100 + h.natAbs % 100 : Nat) : Int)), rest) =
      some (JVal.jdec h, rest)
    have h1 : (h.natAbs / 100 * 100 + h.natAbs % 100 : Nat) = h.natAbs := by omega
    rw [h1]
    have h2 : negJVal (JVal.jdec ((h.natAbs : Nat) : Int)) = JVal.jdec h := by
      show JVal.jdec (-((h.natAbs : Nat) : Int)) = JVal.jdec h
      have hh : -((h.natAbs : Nat) : Int) = h := by omega
      rw [hh]
    rw [h2]
  · rw [if_neg hneg]
    show readNum (([] : List Char) ++ natStr (h.natAbs / 100) ++
        '.' :: decFracChars (h.natAbs % 100) ++ rest) = some (.jdec h, rest)
    rw [List.nil_append]
    cases hns : natStr (h.natAbs / 100) with
    | nil => exact absurd hns (natStr_ne_nil _)
    | cons c cs =>
      have hc : c.isDigit = true := by
        apply natStr_all_digits (h.natAbs / 100)
        rw [hns]
        exact List.mem_cons_self c cs
      rw [List.append_assoc, List.cons_append, readNum, if_neg (digit_ne_special hc).1]
      have hfold : (c :: (cs ++ ('.' :: decFracChars (h.natAbs % 100) ++ rest))) =
          natStr (h.natAbs / 100) ++ ('.' :: (decFracChars (h.natAbs % 100) ++ rest)) := by
        rw [hns]
        simp
      rw [hfold, readNumCore_dec (h.natAbs / 100) (h.natAbs % 100) hmod rest hrest]
      have h1 : (h.natAbs / 100 * 100 + h.natAbs % 100 : Nat) = h.natAbs := by omega
      rw [h1]
      have h2 : ((h.natAbs : Nat) : Int) = h := by omega
      rw [h2]

/-- The safety condition on one JSON value of the report. -/
def valSafe : JVal → Prop
  | .jstr s => jsonSafe s
  | .jstrArr xs => ∀ x ∈ xs, jsonSafe x
  | _ => True

/-- The input seen by `readArrRest` when the elements still to read are
`xs`: each element at its quote, separated by comma, newline and indent, the
closing bracket on its own line at indent 4. -/
def arrTail : List String → List Char → List Char
  | [], rest => rest
  | [x], rest => quoteStr x ++ '\n' :: (indentSp 4 ++ (']' :: rest))
  | x :: xs, rest => quoteStr x ++ ',' :: '\n' :: (indentSp 8 ++ arrTail xs rest)

theorem arrElem_decomp (xs : List String) (rest : List Char) (h : xs ≠ []) :
    arrElemChars xs ++ '\n' :: (indentSp 4 ++ (']' :: rest)) =
      indentSp 8 ++ arrTail xs rest := by
  induction xs with
  | nil => exact absurd rfl h
  | cons x xs ih =>
    cases xs with
    | nil =>
      show (indentSp 8 ++ quoteStr x) ++ '\n' :: (indentSp 4 ++ (']' :: rest)) =
        indentSp 8 ++ (quoteStr x ++ '\n' :: (indentSp 4 ++ (']' :: rest)))
      simp
    | cons y ys =>
      show (indentSp 8 ++ quoteStr x ++ ',' :: '\n' :: arrElemChars (y :: ys)) ++
          '\n' :: (indentSp 4 ++ (']' :: rest)) =
        indentSp 8 ++ (quoteStr x ++ ',' :: '\n' :: (indentSp 8 ++ arrTail (y :: ys) rest))
      rw [← ih (by simp)]
      simp

theorem quoteStr_head (s : String) (rest : List Char) :
    quoteStr s ++ rest = '"' :: (s.data ++ ['"'] ++ rest) := by
  simp [quoteStr]

theorem readArrRest_arrTail (xs : List String) : ∀ fuel rest, xs ≠ [] →
    xs.length ≤ fuel → (∀ x ∈ xs, jsonSafe x) →
    readArrRest fuel (arrTail xs rest) = some (xs, rest) := by
  induction xs with
  | nil => intro fuel rest h; exact absurd rfl h
  | cons x xs ih =>
    intro fuel rest _ hlen hsafe
    cases fuel with
    | zero => simp at hlen
    | succ fuel =>
    have hx : jsonSafe x := hsafe x (List.mem_cons_self x xs)
    cases xs with
    | nil =>
      show readArrRest (fuel + 1)
        (quoteStr x ++ '\n' :: (indentSp 4 ++ (']' :: rest))) = some ([x], rest)
      rw [readArrRest, readQuoted_append x _ hx]
      simp only []
      rw [skipWs_newline, skipWs_indent, skipWs_not_ws (by decide)]
      rfl
    | cons y ys =>
      show readArrRest (fuel + 1)
        (quoteStr x ++ ',' :: '\n' :: (indentSp 8 ++ arrTail (y :: ys) rest)) =
        some (x :: y :: ys, rest)
      rw [readArrRest, readQuoted_append x _ hx]
      simp only []
      rw [skipWs_not_ws (by decide)]
      simp only []
      rw [if_pos trivial, skipWs_newline, skipWs_indent]
      have harr : skipWs (arrTail (y :: ys) rest) = arrTail (y :: ys) rest := by
        have hqhead : ∀ t : List Char, skipWs ('"' :: t) = '"' :: t :=
          fun t => skipWs_not_ws (by decide) t
        cases ys with
        | nil =>
          have hshape : arrTail [y] rest =
              '"' :: (y.data ++ ['"'] ++ ('\n' :: (indentSp 4 ++ (']' :: rest)))) := by
            simp [arrTail, quoteStr]
          rw [hshape]
          exact hqhead _
        | cons z zs =>
          have hshape : arrTail (y :: z :: zs) rest =
              '"' :: (y.data ++ ['"'] ++
                (',' :: '\n' :: (indentSp 8 ++ arrTail (z :: zs) rest))) := by
            simp [arrTail, quoteStr]
          rw [hshape]
          exact hqhead _
      rw [harr, ih fuel rest (by simp) (by simpa using hlen)
        (fun z hz => hsafe z (List.mem_cons_of_mem x hz))]

theorem arrTail_length_ge (xs : List String) (rest : List Char) :
    xs.length ≤ (arrTail xs rest).length := by
  induction xs with
  | nil => simp [arrTail]
  | cons x xs ih =>
    cases xs with
    | nil => simp [arrTail, quoteStr]
    | cons y ys =>
      show (y :: ys).length + 1 ≤ (quoteStr x ++ ',' :: '\n' ::
        (indentSp 8 ++ arrTail (y :: ys) rest)).length
      simp only [List.length_append, List.length_cons, quoteStr, indentSp,
        List.length_replicate] at ih ⊢
      omega

theorem intStr_head (i : Int) :
    ∃ c cs, intStr i = c :: cs ∧ (c = '-' ∨ c.isDigit = true) := by
  unfold intStr
  by_cases hneg : i < 0
  · rw [if_pos hneg]
    exact ⟨'-', natStr i.natAbs, rfl, Or.inl rfl⟩
  · rw [if_neg hneg]
    cases hns : natStr i.natAbs with
    | nil => exact absurd hns (natStr_ne_nil _)
    | cons c cs =>
      refine ⟨c, cs, rfl, Or.inr ?_⟩
      apply natStr_all_digits
      rw [hns]
      exact List.mem_cons_self c cs

theorem decStr_head (h : Int) :
    ∃ c cs, decStr h = c :: cs ∧ (c = '-' ∨ c.isDigit = true) := by
  unfold decStr
  by_cases hneg : h < 0
  · rw [if_pos hneg]
    exact ⟨'-', natStr (h.natAbs / 100) ++ '.' :: decFracChars (h.natAbs % 100), rfl, Or.inl rfl⟩
  · rw [if_neg hneg]
    cases hns : natStr (h.natAbs / 100) with
    | nil => exact absurd hns (natStr_ne_nil _)
    | cons c cs =>
      refine ⟨c, cs ++ '.' :: decFracChars (h.natAbs % 100), by simp, Or.inr ?_⟩
      apply natStr_all_digits (h.natAbs / 100)
      rw [hns]
      exact List.mem_cons_self c cs

theorem numHead_ne (c : Char) (h : c = '-' ∨ c.isDigit = true) : c ≠ '"' ∧ c ≠ '[' := by
  rcases h with h | h
  · subst h
    exact ⟨by decide, by decide⟩
  · exact ⟨(digit_ne_special h).2.2.1, (digit_ne_special h).2.2.2⟩

theorem skipWs_arrTail (x : String) (xs : List String) (rest : List Char) :
    skipWs (arrTail (x :: xs) rest) = arrTail (x :: xs) rest := by
  have hqhead : ∀ t : List Char, skipWs ('"' :: t) = '"' :: t :=
    fun t => skipWs_not_ws (by decide) t
  cases xs with
  | nil =>
    have hshape : arrTail [x] rest =
        '"' :: (x.data ++ ['"'] ++ ('\n' :: (indentSp 4 ++ (']' :: rest)))) := by
      simp [arrTail, quoteStr]
    rw [hshape]
    exact hqhead _
  | cons z zs =>
    have hshape : arrTail (x :: z :: zs) rest =
        '"' :: (x.data ++ ['"'] ++ (',' :: '\n' :: (indentSp 8 ++ arrTail (z :: zs) rest))) := by
      simp [arrTail, quoteStr]
    rw [hshape]
    exact hqhead _

theorem arrTail_cons_quote (x : String) (xs : List String) (rest : List Char) :
    ∃ t, arrTail (x :: xs) rest = '"' :: t := by
  cases xs with
  | nil => exact ⟨x.data ++ ['"'] ++ ('\n' :: (indentSp 4 ++ (']' :: rest))),
      by simp [arrTail, quoteStr]⟩
  | cons z zs => exact ⟨x.data ++ ['"'] ++ (',' :: '\n' :: (indentSp 8 ++ arrTail (z :: zs) rest)),
      by simp [arrTail, quoteStr]⟩

theorem readVal_append (v : JVal) (rest : List Char) (hsafe : valSafe v)
    (hrest : nextNonNum rest) :
    readVal (jvalChars v ++ rest) = some (v, rest) := by
  cases v with
  | jstr s =>
    show readVal ('"' :: (s.data ++ ['"']) ++ rest) = some (.jstr s, rest)
    rw [List.cons_append, List.append_assoc]
    rw [readVal, if_pos rfl]
    rw [show (['"'] : List Char) ++ rest = '"' :: rest from rfl]
    rw [takeStrBody_append s.data rest (fun c hc => (hsafe c hc).1)]
    rfl
  | jint i =>
    obtain ⟨c, cs, hic, hcp⟩ := intStr_head i
    show readVal (intStr i ++ rest) = some (.jint i, rest)
    rw [hic, List.cons_append, readVal, if_neg (numHead_ne c hcp).1,
      if_neg (numHead_ne c hcp).2, ← List.cons_append, ← hic,
      readNum_intStr i rest hrest]
  | jdec h =>
    obtain ⟨c, cs, hic, hcp⟩ := decStr_head h
    show readVal (decStr h ++ rest) = some (.jdec h, rest)
    rw [hic, List.cons_append, readVal, if_neg (numHead_ne c hcp).1,
      if_neg (numHead_ne c hcp).2, ← List.cons_append, ← hic,
      readNum_decStr h rest hrest]
  | jstrArr xs =>
    cases xs with
    | nil =>
      show readVal ('[' :: (']' :: rest)) = some (.jstrArr [], rest)
      rw [readVal, if_neg (by decide), if_pos rfl]
      rw [readStrArr, skipWs_not_ws (by decide)]
      rfl
    | cons x xs =>
      have hdecomp : jvalChars (.jstrArr (x :: xs)) ++ rest =
          '[' :: '\n' :: (indentSp 8 ++ arrTail (x :: xs) rest) := by
        show ('[' :: '\n' :: (arrElemChars (x :: xs) ++ '\n' :: (indentSp 4 ++ [']']))) ++ rest =
          '[' :: '\n' :: (indentSp 8 ++ arrTail (x :: xs) rest)
        rw [← arrElem_decomp (x :: xs) rest (by simp)]
        simp
      rw [hdecomp, readVal, if_neg (by decide), if_pos rfl]
      rw [readStrArr, skipWs_newline, skipWs_indent, skipWs_arrTail]
      obtain ⟨t, ht⟩ := arrTail_cons_quote x xs rest
      rw [ht]
      simp only []
      rw [if_neg (by decide), ← ht]
      have hfuel : (x :: xs).length ≤ ('\n' :: (indentSp 8 ++ arrTail (x :: xs) rest)).length + 1 := by
        have hge := arrTail_length_ge (x :: xs) rest
        simp only [List.length_cons, List.length_append, indentSp, List.length_replicate] at hge ⊢
        omega
      rw [readArrRest_arrTail (x :: xs) _ rest (by simp) hfuel hsafe]
      rfl

theorem skipWs_space (cs : List Char) : skipWs (' ' :: cs) = skipWs cs := by
  have h : isWsChar ' ' = true := by decide
  simp [skipWs, h]

theorem skipWs_idem (cs : List Char) : skipWs (skipWs cs) = skipWs cs := by
  induction cs with
  | nil => rfl
  | cons c cs ih =>
    by_cases h : isWsChar c = true
    · simp [skipWs, h, ih]
    · have hf : isWsChar c = false := by
        cases hic : isWsChar c
        · rfl
        · exact absurd hic h
      rw [skipWs_not_ws hf, skipWs_not_ws hf]

theorem readFields_skipWs (fuel : Nat) (cs : List Char) :
    readFields fuel (skipWs cs) = readFields fuel cs := by
  cases fuel with
  | zero => rfl
  | succ fuel => rw [readFields, readFields, skipWs_idem]

theorem digit_not_ws {c : Char} (h : c.isDigit = true) : isWsChar c = false := by
  rw [isDigit_iff] at h
  cases hw : isWsChar c
  · rfl
  · exfalso
    simp only [isWsChar, Bool.or_eq_true, decide_eq_true_eq] at hw
    rcases hw with ((h1 | h1) | h1) | h1 <;> rw [h1] at h <;> revert h <;> decide

theorem skipWs_jval (v : JVal) (x : List Char) :
    skipWs (jvalChars v ++ x) = jvalChars v ++ x := by
  cases v with
  | jstr s =>
    rw [show jvalChars (.jstr s) ++ x = '"' :: (s.data ++ ['"'] ++ x) from by
      simp [jvalChars, quoteStr]]
    exact skipWs_not_ws (by decide) _
  | jint i =>
    obtain ⟨c, cs, hic, hcp⟩ := intStr_head i
    rw [show jvalChars (.jint i) ++ x = intStr i ++ x from rfl, hic, List.cons_append]
    apply skipWs_not_ws
    rcases hcp with h | h
    · rw [h]
      decide
    · exact digit_not_ws h
  | jdec h =>
    obtain ⟨c, cs, hic, hcp⟩ := decStr_head h
    rw [show jvalChars (.jdec h) ++ x = decStr h ++ x from rfl, hic, List.cons_append]
    apply skipWs_not_ws
    rcases hcp with h | h
    · rw [h]
      decide
    · exact digit_not_ws h
  | jstrArr xs =>
    cases xs with
    | nil => exact skipWs_not_ws (by decide) _
    | cons y ys => exact skipWs_not_ws (by decide) _

/-- The input seen by `readFields` when the fields still to read are `fs`:
each key at its quote, the closing brace on its own line at indent 0. -/
def fieldsTail : List (String × JVal) → List Char → List Char
  | [], rest => rest
  | [f], rest => quoteStr f.1 ++ ':' :: ' ' :: (jvalChars f.2 ++ '\n' :: rbrace :: rest)
  | f :: fs, rest =>
    quoteStr f.1 ++ ':' :: ' ' :: (jvalChars f.2 ++ ',' :: '\n' :: (indentSp 4 ++ fieldsTail fs rest))

theorem objFields_decomp (fields : List (String × JVal)) (rest : List Char)
    (h : fields ≠ []) :
    objFieldsChars fields ++ '\n' :: rbrace :: rest = indentSp 4 ++ fieldsTail fields rest := by
  induction fields with
  | nil => exact absurd rfl h
  | cons f fs ih =>
    cases fs with
    | nil =>
      show (indentSp 4 ++ quoteStr f.1 ++ ':' :: ' ' :: jvalChars f.2) ++
          '\n' :: rbrace :: rest =
        indentSp 4 ++ (quoteStr f.1 ++ ':' :: ' ' :: (jvalChars f.2 ++ '\n' :: rbrace :: rest))
      simp
    | cons g gs =>
      show ((indentSp 4 ++ quoteStr f.1 ++ ':' :: ' ' :: jvalChars f.2) ++
          ',' :: '\n' :: objFieldsChars (g :: gs)) ++ '\n' :: rbrace :: rest =
        indentSp 4 ++ (quoteStr f.1 ++ ':' :: ' ' ::
          (jvalChars f.2 ++ ',' :: '\n' :: (indentSp 4 ++ fieldsTail (g :: gs) rest)))
      rw [← ih (by simp)]
      simp

theorem fieldsTail_quote (f : String × JVal) (fs : List (String × JVal))
    (rest : List Char) : ∃ t, fieldsTail (f :: fs) rest = '"' :: t := by
  cases fs with
  | nil => exact ⟨f.1.data ++ ['"'] ++ (':' :: ' ' :: (jvalChars f.2 ++ '\n' :: rbrace :: rest)),
      by simp [fieldsTail, quoteStr]⟩
  | cons g gs => exact ⟨f.1.data ++ ['"'] ++ (':' :: ' ' ::
      (jvalChars f.2 ++ ',' :: '\n' :: (indentSp 4 ++ fieldsTail (g :: gs) rest))),
      by simp [fieldsTail, quoteStr]⟩

theorem skipWs_fieldsTail (f : String × JVal) (fs : List (String × JVal))
    (rest : List Char) :
    skipWs (fieldsTail (f :: fs) rest) = fieldsTail (f :: fs) rest := by
  obtain ⟨t, ht⟩ := fieldsTail_quote f fs rest
  rw [ht]
  exact skipWs_not_ws (by decide) _

theorem fieldsTail_length_ge (fields : List (String × JVal)) (rest : List Char) :
    fields.length ≤ (fieldsTail fields rest).length := by
  induction fields with
  | nil => simp [fieldsTail]
  | cons f fs ih =>
    cases fs with
    | nil => simp [fieldsTail, quoteStr]
    | cons g gs =>
      show (g :: gs).length + 1 ≤ (quoteStr f.1 ++ ':' :: ' ' ::
        (jvalChars f.2 ++ ',' :: '\n' :: (indentSp 4 ++ fieldsTail (g :: gs) rest))).length
      simp only [List.length_append, List.length_cons, quoteStr, indentSp,
        List.length_replicate] at ih ⊢
      omega

theorem readFields_fieldsTail (fields : List (String × JVal)) : ∀ fuel rest,
    fields ≠ [] → fields.length ≤ fuel →
    (∀ f ∈ fields, jsonSafe f.1 ∧ valSafe f.2) →
    readFields fuel (fieldsTail fields rest) = some (fields, rest) := by
  induction fields with
  | nil => intro fuel rest h; exact absurd rfl h
  | cons f fs ih =>
    intro fuel rest _ hlen hsafe
    cases fuel with
    | zero => simp at hlen
    | succ fuel =>
    have hk : jsonSafe f.1 := (hsafe f (List.mem_cons_self f fs)).1
    have hv : valSafe f.2 := (hsafe f (List.mem_cons_self f fs)).2
    cases fs with
    | nil =>
      show readFields (fuel + 1)
        (quoteStr f.1 ++ ':' :: ' ' :: (jvalChars f.2 ++ '\n' :: rbrace :: rest)) =
        some ([f], rest)
      rw [readFields]
      have hski : skipWs (quoteStr f.1 ++ ':' :: ' ' ::
          (jvalChars f.2 ++ '\n' :: rbrace :: rest)) =
          quoteStr f.1 ++ ':' :: ' ' :: (jvalChars f.2 ++ '\n' :: rbrace :: rest) := by
        rw [quoteStr_head]
        exact skipWs_not_ws (by decide) _
      rw [hski, readQuoted_append f.1 _ hk]
      simp only []
      rw [skipWs_not_ws (by decide)]
      simp only []
      rw [if_pos (by trivial), skipWs_space, skipWs_jval,
        readVal_append f.2 ('\n' :: rbrace :: rest) hv (by constructor <;> decide)]
      simp only []
      rw [skipWs_newline, skipWs_not_ws (by decide)]
      simp only []
      rw [if_neg (by decide), if_pos (by trivial)]
    | cons g gs =>
      show readFields (fuel + 1) (quoteStr f.1 ++ ':' :: ' ' ::
          (jvalChars f.2 ++ ',' :: '\n' :: (indentSp 4 ++ fieldsTail (g :: gs) rest))) =
        some (f :: g :: gs, rest)
      rw [readFields]
      have hski : skipWs (quoteStr f.1 ++ ':' :: ' ' ::
          (jvalChars f.2 ++ ',' :: '\n' :: (indentSp 4 ++ fieldsTail (g :: gs) rest))) =
          quoteStr f.1 ++ ':' :: ' ' ::
            (jvalChars f.2 ++ ',' :: '\n' :: (indentSp 4 ++ fieldsTail (g :: gs) rest)) := by
        rw [quoteStr_head]
        exact skipWs_not_ws (by decide) _
      rw [hski, readQuoted_append f.1 _ hk]
      simp only []
      rw [skipWs_not_ws (by decide)]
      simp only []
      rw [if_pos (by trivial), skipWs_space, skipWs_jval,
        readVal_append f.2 (',' :: '\n' :: (indentSp 4 ++ fieldsTail (g :: gs) rest)) hv
          (by constructor <;> decide)]
      simp only []
      rw [skipWs_not_ws (by decide)]
      simp only []
      rw [if_pos (by trivial)]
      have hrec : readFields fuel ('\n' :: (indentSp 4 ++ fieldsTail (g :: gs) rest)) =
          some (g :: gs, rest) := by
        rw [← readFields_skipWs, skipWs_newline, skipWs_indent, skipWs_fieldsTail,
          ih fuel rest (by simp) (by simpa using hlen)
            (fun q hq => hsafe q (List.mem_cons_of_mem f hq))]
      rw [hrec]

theorem parseJson_dumpsObj (fields : List (String × JVal)) (hne : fields ≠ [])
    (hsafe : ∀ f ∈ fields, jsonSafe f.1 ∧ valSafe f.2) :
    parseJson (dumpsObj fields) = some fields := by
  obtain ⟨f, fs, hf⟩ : ∃ f fs, fields = f :: fs := by
    cases fields with
    | nil => exact absurd rfl hne
    | cons f fs => exact ⟨f, fs, rfl⟩
  have hobj : dumpsObj fields = lbrace :: '\n' :: (objFieldsChars fields ++ ['\n', rbrace]) := by
    rw [hf]
    rfl
  have hdec : (objFieldsChars fields ++ ['\n', rbrace] : List Char) =
      indentSp 4 ++ fieldsTail fields [] := by
    have h0 := objFields_decomp fields [] hne
    simpa using h0
  rw [hobj, parseJson, skipWs_not_ws (by decide)]
  simp only []
  rw [if_pos (by trivial), hdec, skipWs_newline, skipWs_indent, hf, skipWs_fieldsTail]
  obtain ⟨t, ht⟩ := fieldsTail_quote f fs []
  rw [ht]
  simp only []
  rw [if_neg (by decide), ← ht]
  have hfuel : (f :: fs).length ≤
      ('\n' :: (indentSp 4 ++ fieldsTail (f :: fs) [])).length + 1 := by
    have hge := fieldsTail_length_ge (f :: fs) []
    simp only [List.length_cons, List.length_append, indentSp, List.length_replicate] at hge ⊢
    omega
  rw [readFields_fieldsTail (f :: fs) _ [] (by simp) hfuel (hf ▸ hsafe)]
  rfl

theorem jsonSafe_append (a b : String) (ha : jsonSafe a) (hb : jsonSafe b) :
    jsonSafe (a ++ b) := by
  intro c hc
  rw [String.data_append] at hc
  rcases List.mem_append.mp hc with h | h
  · exact ha c h
  · exact hb c h

/-- C4: serialising the report dict as JSON and parsing the text back yields
exactly the seven documented keys in source order, with the `keywords` entry
an array of the formatted `term:value%` strings. -/
theorem C4_json_roundtrip (d : ReportData)
    (h1 : jsonSafe d.name) (h2 : jsonSafe d.researchTopic) (h3 : jsonSafe d.feedback)
    (h4 : ∀ p ∈ d.keywords, jsonSafe p.1 ∧ jsonSafe p.2) :
    parseJson (reportJsonText d).data =
      some [("name", JVal.jstr d.name),
            ("research topic", JVal.jstr d.researchTopic),
            ("total words", JVal.jint (d.totalWords : Int)),
            ("total characters", JVal.jint (d.totalChars : Int)),
            ("readability scores", JVal.jdec d.scoreHundredths),
            ("feedback", JVal.jstr d.feedback),
            ("keywords",
              JVal.jstrArr (d.keywords.map (fun p => p.1 ++ ":" ++ p.2 ++ "%")))] := by
  have hsafe : ∀ f ∈ reportFields d, jsonSafe f.1 ∧ valSafe f.2 := by
    intro f hf
    unfold reportFields at hf
    simp only [List.mem_cons, List.not_mem_nil, or_false] at hf
    rcases hf with hf | hf | hf | hf | hf | hf | hf <;> subst hf
    · exact ⟨(by decide : jsonSafe "name"), h1⟩
    · exact ⟨(by decide : jsonSafe "research topic"), h2⟩
    · exact ⟨(by decide : jsonSafe "total words"), trivial⟩
    · exact ⟨(by decide : jsonSafe "total characters"), trivial⟩
    · exact ⟨(by decide : jsonSafe "readability scores"), trivial⟩
    · exact ⟨(by decide : jsonSafe "feedback"), h3⟩
    · refine ⟨(by decide : jsonSafe "keywords"), ?_⟩
      intro x hx
      obtain ⟨p, hp, hpx⟩ := List.mem_map.mp hx
      rw [← hpx]
      exact jsonSafe_append _ _
        (jsonSafe_append _ _
          (jsonSafe_append _ _ (h4 p hp).1 (by decide)) (h4 p hp).2) (by decide)
  have hmain := parseJson_dumpsObj (reportFields d) (by simp [reportFields]) hsafe
  exact hmain

set_option maxRecDepth 200000 in
/-- Witness for C4 at a concrete report. -/
theorem C4_json_roundtrip_witness :
    (jsonSafe "JANE DOE" ∧ jsonSafe "A RESEARCH TOPIC" ∧ jsonSafe "fine work" ∧
      (∀ p ∈ ([("algorithm", "0.52"), ("data", "0.31")] : List (String × String)),
        jsonSafe p.1 ∧ jsonSafe p.2)) ∧
    parseJson (reportJsonText
        ⟨"JANE DOE", "A RESEARCH TOPIC", 120, 756, 4325, "fine work",
         [("algorithm", "0.52"), ("data", "0.31")]⟩).data =
      some [("name", JVal.jstr "JANE DOE"),
            ("research topic", JVal.jstr "A RESEARCH TOPIC"),
            ("total words", JVal.jint 120),
            ("total characters", JVal.jint 756),
            ("readability scores", JVal.jdec 4325),
            ("feedback", JVal.jstr "fine work"),
            ("keywords", JVal.jstrArr ["algorithm:0.52%", "data:0.31%"])] :=
  ⟨⟨by decide, by decide, by decide, by decide⟩,
   C4_json_roundtrip
     ⟨"JANE DOE", "A RESEARCH TOPIC", 120, 756, 4325, "fine work",
      [("algorithm", "0.52"), ("data", "0.31")]⟩
     (by decide) (by decide) (by decide) (by decide)⟩
